import Mathlib

/-!
Shallow embedding of the paddleocr.js core (Image operations, detection
post-processing, CTC decoding, pipeline validation and line grouping),
together with proofs settling the frozen claims about the library.

Numbers are modelled by ℚ (JavaScript numbers, exact on the inputs the
claims range over), byte buffers by `List ℕ`, and JavaScript NaN results
(0/0 on an empty score list) by `Option ℚ` with `none` standing for NaN.
-/

namespace PaddleOCR

/-- JavaScript Math.round: round half up, as a floor. -/
def jsRound (q : ℚ) : ℤ := ⌊q + 1/2⌋

def emptyString : String := ""

/-! ### Image buffer (src/utils/image.ts) -/

/-- Raster image: interleaved bytes, row-major, `depth = 8` is implicit. -/
structure Image where
  width : ℕ
  height : ℕ
  channels : ℕ
  data : List ℕ
deriving Repr, DecidableEq

/-- The data-model invariant of the spec: bytes.length == width·height·channels. -/
def Image.invariantHolds (img : Image) : Prop :=
  img.data.length = img.width * img.height * img.channels

instance (img : Image) : Decidable img.invariantHolds := by
  unfold Image.invariantHolds; infer_instance

/-- Image.crop: guard against out-of-bounds, then copy `channels` bytes per
pixel row-major.  The source copies via a preallocated zero buffer and
typed-array `set` of `channels`-byte slices; positions a short slice does not
reach keep the allocation's zero bytes, which the `++ replicate` tail models.
Coordinates are natural numbers: every call site passes non-negative integer
boxes and the source throws on negative coordinates. -/
def Image.crop (img : Image) (x y w h : ℕ) : Option Image :=
  if img.width < x + w ∨ img.height < y + h then none
  else some
    { width := w, height := h, channels := img.channels
      data := (List.range h).flatMap (fun j =>
        (List.range w).flatMap (fun i =>
          let chunk := (img.data.drop (((y + j) * img.width + (x + i)) * img.channels)).take
            img.channels
          chunk ++ List.replicate (img.channels - chunk.length) 0)) }

/-- Triangle (linear) resampling kernel. -/
def triangleKernel (x : ℚ) : ℚ := if |x| < 1 then 1 - |x| else 0

def clampQ (v lo hi : ℚ) : ℚ := max lo (min hi v)

/-- One axis of the separable triangle filter: for output coordinate `out`,
the window start `left` and the normalized weights, exactly as in the source
(ratio, sratio, support, boundary clipping, renormalization). -/
def resizeWeights (src dst : ℕ) (out : ℕ) : ℕ × List ℚ :=
  let ratio : ℚ := (src : ℚ) / (dst : ℚ)
  let sratio : ℚ := max ratio 1
  let support : ℚ := sratio
  let input : ℚ := ((out : ℚ) + 1/2) * ratio - 1/2
  let left : ℤ := max 0 ⌊input - support⌋
  let right : ℤ := min (src : ℤ) ⌈input + support⌉
  let ws : List ℚ := (List.range (right - left).toNat).map
    (fun k => triangleKernel (((left : ℚ) + (k : ℚ) - input) / sratio))
  let s : ℚ := ws.sum
  (left.toNat, ws.map (fun w => w / s))

/-- The float buffer of the vertical pass of Image.resize: every position is
written exactly once, so the buffer equals this row-major construction. -/
def resizeTmpData (img : Image) (height : ℕ) : List ℚ :=
  (List.range height).flatMap (fun outy =>
    let lw := resizeWeights img.height height outy
    (List.range img.width).flatMap (fun x =>
      (List.range img.channels).map (fun c =>
        (lw.2.enum.map (fun kw =>
          ((img.data.getD (((lw.1 + kw.1) * img.width + x) * img.channels + c) 0 : ℚ) *
            kw.2))).sum)))

/-- The output buffer of the horizontal pass of Image.resize, reading the
vertical-pass buffer; again every position is written exactly once and the
buffer equals this row-major construction. -/
def resizeData (img : Image) (width height : ℕ) : List ℕ :=
  let tmpData := resizeTmpData img height
  (List.range height).flatMap (fun y =>
    (List.range width).flatMap (fun outx =>
      let lw := resizeWeights img.width width outx
      (List.range img.channels).map (fun c =>
        let t : ℚ := (lw.2.enum.map (fun kw =>
          (tmpData.getD ((y * img.width + (lw.1 + kw.1)) * img.channels + c) 0) * kw.2)).sum
        (jsRound (clampQ t 0 255)).toNat)))

/-- Image.resize: separable triangle filter, vertical pass to a float buffer
then horizontal pass with round-and-clamp.  A `0` or missing dimension counts
as absent (JavaScript falsiness); the missing one is computed by rounded
aspect ratio. -/
def Image.resize (img : Image) (wOpt hOpt : Option ℕ) : Option Image :=
  let wMissing : Bool := wOpt.getD 0 = 0
  let hMissing : Bool := hOpt.getD 0 = 0
  if wMissing ∧ hMissing then none
  else
    let width : ℕ :=
      if wMissing then
        (jsRound ((img.width : ℚ) * ((hOpt.getD 0 : ℚ) / (img.height : ℚ)))).toNat
      else wOpt.getD 0
    let height : ℕ :=
      if hMissing then
        (jsRound ((img.height : ℚ) * ((width : ℚ) / (img.width : ℚ)))).toNat
      else hOpt.getD 0
    some { width := width, height := height, channels := img.channels
           data := resizeData img width height }

/-- Options of Image.padding; `none` models an absent (undefined) field. -/
structure PaddingOptions where
  padding : Option ℕ := none
  vertical : Option ℕ := none
  horizontal : Option ℕ := none
  top : Option ℕ := none
  bottom : Option ℕ := none
  left : Option ℕ := none
  right : Option ℕ := none
  color : Option (List ℕ) := none

/-- The buffer of Image.padding: color-filled 4-byte pixels with the source
copied (at a 4-byte stride) into the interior at (left, top); each pixel of
the fill pass is fully overwritten by the copy pass where the copy reaches,
so the buffer equals this row-major construction. -/
def paddedData (img : Image) (top left newW newH : ℕ) (colorBytes : List ℕ) : List ℕ :=
  (List.range newH).flatMap (fun y =>
    (List.range newW).flatMap (fun x =>
      if top ≤ y ∧ y < top + img.height ∧ left ≤ x ∧ x < left + img.width then
        let chunk := ((img.data.drop (((y - top) * img.width + (x - left)) * 4)).take 4).map
          (fun v => v % 256)
        chunk ++ colorBytes.drop chunk.length
      else colorBytes))

/-- Image.padding: resolve margins with precedence padding over
vertical/horizontal over per-side, fill a `newW × newH` buffer of FOUR bytes
per pixel with the color, then copy the source at a 4-byte stride.  The
returned `channels` field is copied from the source image (as in the
constructor call of the source), while the buffer itself always has
`newW·newH·4` bytes.  A source pixel chunk shorter than 4 bytes (non-RGBA
source near the end of its data) leaves the already-written color bytes,
which the `++ drop` tail models.  Written bytes are reduced mod 256
(Uint8Array coercion). -/
def Image.padding (img : Image) (o : PaddingOptions) : Image :=
  let sides : ℕ × ℕ × ℕ × ℕ :=
    match o.padding with
    | some p => (p, p, p, p)
    | none =>
      let tb : Option ℕ × Option ℕ :=
        match o.vertical with
        | some v => (some v, some v)
        | none => (o.top, o.bottom)
      let lr : Option ℕ × Option ℕ :=
        match o.horizontal with
        | some hz => (some hz, some hz)
        | none => (o.left, o.right)
      (tb.1.getD 0, tb.2.getD 0, lr.1.getD 0, lr.2.getD 0)
  let top := sides.1
  let bottom := sides.2.1
  let left := sides.2.2.1
  let right := sides.2.2.2
  let color : List ℕ := o.color.getD [0, 0, 0, 0]
  let colorBytes : List ℕ := [color.getD 0 0 % 256, color.getD 1 0 % 256,
    color.getD 2 0 % 256, color.getD 3 0 % 256]
  let newW := img.width + left + right
  let newH := img.height + top + bottom
  { width := newW, height := newH, channels := img.channels
    data := paddedData img top left newW newH colorBytes }

/-- Image.threshold: read channel 0 of each pixel, emit 255 above the
threshold else 0; single-channel output. -/
def Image.threshold (img : Image) (thr : Option ℚ) : Image :=
  let t : ℚ := thr.getD 128
  { width := img.width, height := img.height, channels := 1
    data := (List.range (img.width * img.height)).map
      (fun i => if t < (img.data.getD (i * img.channels) 0 : ℚ) then 255 else 0) }

/-- Forward-pass neighbor offsets of the chamfer sweep: dy ∈ \x7b-1,0\x7d,
dx ∈ \x7b-1,0,1\x7d without (0,0), as iterated by the source. -/
def chamferFwdOffsets : List (ℤ × ℤ) := [(-1, -1), (0, -1), (1, -1), (-1, 0), (1, 0)]

/-- Backward-pass neighbor offsets: dy ∈ \x7b0,1\x7d, dx ∈ \x7b-1,0,1\x7d without (0,0). -/
def chamferBwdOffsets : List (ℤ × ℤ) := [(-1, 0), (1, 0), (-1, 1), (0, 1), (1, 1)]

def chamferINF : ℕ := 999999

/-- One chamfer relaxation at pixel (x, y) over the given offsets, reading the
current (partially updated) distance buffer, as the in-place sweep does. -/
def chamferRelax (w h : ℕ) (offs : List (ℤ × ℤ)) (dist : List ℕ) (x y : ℕ) : List ℕ :=
  let idx := y * w + x
  if dist.getD idx 0 = 0 then dist
  else
    let minDist : ℕ := offs.foldl (fun m d =>
      let nx : ℤ := (x : ℤ) + d.1
      let ny : ℤ := (y : ℤ) + d.2
      if 0 ≤ nx ∧ nx < (w : ℤ) ∧ 0 ≤ ny ∧ ny < (h : ℤ) then
        min m (dist.getD (ny.toNat * w + nx.toNat) 0 + 1)
      else m) chamferINF
    dist.set idx (min (dist.getD idx 0) minDist)

/-- Image.dilate: only the LInf norm on single-channel images; two-pass
chamfer distance to the nearest foreground pixel, then threshold at k. -/
def Image.dilate (img : Image) (k : ℕ) : Option Image :=
  if img.channels ≠ 1 then none
  else
    let w := img.width
    let h := img.height
    let dist0 : List ℕ := (List.range (w * h)).map
      (fun i => if 0 < img.data.getD i 0 then 0 else chamferINF)
    let distF : List ℕ := (List.range h).foldl (fun dist y =>
      (List.range w).foldl (fun dist x => chamferRelax w h chamferFwdOffsets dist x y) dist)
      dist0
    let distB : List ℕ := (List.range h).reverse.foldl (fun dist y =>
      (List.range w).reverse.foldl (fun dist x => chamferRelax w h chamferBwdOffsets dist x y)
      dist) distF
    some { width := w, height := h, channels := 1
           data := (List.range (w * h)).map (fun i => if distB.getD i 0 ≤ k then 255 else 0) }

/-! ### Connected components (Image.contours) -/

/-- A pixel coordinate (x, y). -/
abbrev Pix := ℕ × ℕ

/-- The eight neighbor offsets, in the iteration order of the source. -/
def nbrOffsets : List (ℤ × ℤ) :=
  [(-1, 0), (1, 0), (0, -1), (0, 1), (-1, -1), (1, -1), (-1, 1), (1, 1)]

/-- In-range neighbors of a pixel. -/
def neighborList (w h : ℕ) (p : Pix) : List Pix :=
  nbrOffsets.filterMap (fun d =>
    let nx : ℤ := (p.1 : ℤ) + d.1
    let ny : ℤ := (p.2 : ℤ) + d.2
    if 0 ≤ nx ∧ nx < (w : ℤ) ∧ 0 ≤ ny ∧ ny < (h : ℤ) then some (nx.toNat, ny.toNat) else none)

/-- Foreground test of contours: any non-zero byte at index y·w + x. -/
def binOf (img : Image) : Pix → Bool :=
  fun p => decide (0 < img.data.getD (p.2 * img.width + p.1) 0)

/-- All pixels of a w × h grid. -/
def gridF (w h : ℕ) : Finset Pix := Finset.range w ×ˢ Finset.range h

/-- Foreground pixels of the grid. -/
def goodSet (bin : Pix → Bool) (w h : ℕ) : Finset Pix :=
  (gridF w h).filter (fun p => bin p = true)

/-- Breadth-first flood fill: pop the queue head, push its unvisited in-range
foreground neighbors (marking them visited as the source does one by one),
and return the pixels in pop order together with the final visited set.  The
fuel bounds the number of pops; `contours` passes enough for the loop to
drain the queue (each push marks a fresh grid pixel). -/
def bfsAux (bin : Pix → Bool) (w h : ℕ) :
    ℕ → List Pix → Finset Pix → List Pix × Finset Pix
  | 0, _, visited => ([], visited)
  | _ + 1, [], visited => ([], visited)
  | fuel + 1, p :: rest, visited =>
    let ns := (neighborList w h p).filter (fun q => bin q && decide (q ∉ visited))
    let r := bfsAux bin w h fuel (rest ++ ns) (visited ∪ ns.toFinset)
    (p :: r.1, r.2)

/-- Row-major list of all grid pixels, the seed order of the outer loop. -/
def seedsList (w h : ℕ) : List Pix :=
  (List.range h).flatMap (fun y => (List.range w).map (fun x => (x, y)))

/-- Outer loop of contours: seed a flood fill at every unvisited foreground
pixel in row-major order; returns each component as its pop-ordered pixel
list, together with the final visited set. -/
def contoursPopsAux (bin : Pix → Bool) (w h : ℕ) :
    List Pix → Finset Pix → List (List Pix) × Finset Pix
  | [], visited => ([], visited)
  | s :: ss, visited =>
    if bin s = true ∧ s ∉ visited then
      let r := bfsAux bin w h (w * h + 1) [s] (insert s visited)
      let rec' := contoursPopsAux bin w h ss r.2
      (r.1 :: rec'.1, rec'.2)
    else contoursPopsAux bin w h ss visited

/-- The connected components of an image, each as its pop-ordered pixel list,
in discovery order. -/
def Image.contoursPops (img : Image) : List (List Pix) :=
  (contoursPopsAux (binOf img) img.width img.height
    (seedsList img.width img.height) ∅).1

/-- A rectangle with JavaScript-number (rational) fields, the Box of the
source interface. -/
structure Box where
  x : ℚ
  y : ℚ
  width : ℚ
  height : ℚ
deriving Repr, DecidableEq

/-- Bounding box of a component: the source folds min/max over the pixels in
pop order, initialized at the seed (the first pop). -/
def boxOfPops (pops : List Pix) : Box :=
  match pops with
  | [] => ⟨0, 0, 0, 0⟩
  | p :: _ =>
    let st := pops.foldl
      (fun (st : ℕ × ℕ × ℕ × ℕ) q =>
        (min st.1 q.1, min st.2.1 q.2, max st.2.2.1 q.1, max st.2.2.2 q.2))
      (p.1, p.2, p.1, p.2)
    ⟨(st.1 : ℚ), (st.2.1 : ℚ), ((st.2.2.1 - st.1 + 1 : ℕ) : ℚ),
      ((st.2.2.2 - st.2.1 + 1 : ℕ) : ℚ)⟩

/-- Image.contours: one box per connected component whose pixel count is at
least minArea, in discovery order. -/
def Image.contours (img : Image) (minArea : ℕ) : List Box :=
  img.contoursPops.filterMap
    (fun pops => if minArea ≤ pops.length then some (boxOfPops pops) else none)

/-! ### Detection post-processing (src/processor/detection.ts) -/

/-- Result of DetectionService.calculateResizeDimensions. -/
structure ResizeDims where
  srcWidth : ℕ
  srcHeight : ℕ
  dstWidth : ℕ
  dstHeight : ℕ
  scaleWidth : ℚ
  scaleHeight : ℚ
deriving Repr, DecidableEq

/-- DetectionService.calculateResizeDimensions: scale the longest side to
maxSideLength, floor, and snap a dimension that is not a multiple of 32 to
max(floor(d/32)·32, 32); a dimension already divisible by 32 (including 0) is
kept. -/
def detScaleRatio (srcW srcH maxSide : ℕ) : ℚ :=
  if srcH < srcW then (maxSide : ℚ) / (srcW : ℚ) else (maxSide : ℚ) / (srcH : ℚ)

/-- The conditional snap of a destination dimension: a value that is not a
multiple of 32 becomes max(floor(d/32)·32, 32); a multiple of 32 (including
0) is left unchanged. -/
def snap32 (d0 : ℕ) : ℕ := if d0 % 32 ≠ 0 then max (d0 / 32 * 32) 32 else d0

def calculateResizeDimensions (srcW srcH maxSide : ℕ) : ResizeDims :=
  let ratio : ℚ := detScaleRatio srcW srcH maxSide
  let dw : ℕ := snap32 ((⌊(srcW : ℚ) * ratio⌋).toNat)
  let dh : ℕ := snap32 ((⌊(srcH : ℚ) * ratio⌋).toNat)
  { srcWidth := srcW, srcHeight := srcH, dstWidth := dw, dstHeight := dh
    scaleWidth := (dw : ℚ) / (srcW : ℚ), scaleHeight := (dh : ℚ) / (srcH : ℚ) }

/-- DetectionService.applyPaddingToRect with explicit padding fractions: both
margins are fractions of the height; clamp left/top at 0 and right/bottom at
the map bounds, recomputing width/height from the clamped extents (the
pre-clamp width/height assignments of the source are overwritten before use). -/
def applyPaddingToRect (rect : Box) (maxW maxH pv ph : ℚ) : Box :=
  let verticalPadding : ℚ := (jsRound (rect.height * pv) : ℚ)
  let horizontalPadding : ℚ := (jsRound (rect.height * ph) : ℚ)
  let x : ℚ := max 0 (rect.x - horizontalPadding)
  let y : ℚ := max 0 (rect.y - verticalPadding)
  let rightEdge : ℚ := min maxW (rect.x + rect.width + horizontalPadding)
  let bottomEdge : ℚ := min maxH (rect.y + rect.height + verticalPadding)
  { x := x, y := y, width := rightEdge - x, height := bottomEdge - y }

/-- DetectionService.convertToOriginalCoordinates: divide by the scales,
round, clamp into the source image. -/
def convertToOriginalCoordinates (rect : Box) (rp : ResizeDims) : Box :=
  let scaledX := rect.x / rp.scaleWidth
  let scaledY := rect.y / rp.scaleHeight
  let scaledWidth := rect.width / rp.scaleWidth
  let scaledHeight := rect.height / rp.scaleHeight
  let x : ℚ := max 0 (jsRound scaledX : ℚ)
  let y : ℚ := max 0 (jsRound scaledY : ℚ)
  let width : ℚ := min ((rp.srcWidth : ℚ) - x) (jsRound scaledWidth : ℚ)
  let height : ℚ := min ((rp.srcHeight : ℚ) - y) (jsRound scaledHeight : ℚ)
  { x := x, y := y, width := width, height := height }

/-- The per-box map of postprocessDetection: inflate the contour box inside
the probability map, then convert back to source coordinates. -/
def detectorBoxPostprocess (rect : Box) (rp : ResizeDims) (pv ph : ℚ) : Box :=
  convertToOriginalCoordinates
    (applyPaddingToRect rect (rp.dstWidth : ℚ) (rp.dstHeight : ℚ) pv ph) rp

/-- The detection options fields applyPaddingToRect's default parameters
read; `none` models an absent field of the user's Partial options object. -/
structure DetectionOptsPartial where
  paddingBoxVertical : Option ℚ := none
  paddingBoxHorizontal : Option ℚ := none

/-- Merge of the user options over DEFAULT_DETECTION_OPTIONS (object spread:
a present user field wins, absent falls back to defaults 0.4 and 0.6). -/
def mergedPaddingBoxVertical (o : DetectionOptsPartial) : ℚ :=
  o.paddingBoxVertical.getD (2/5)

def mergedPaddingBoxHorizontal (o : DetectionOptsPartial) : ℚ :=
  o.paddingBoxHorizontal.getD (3/5)

/-- JavaScript `v or-else d` on numbers: a falsy (zero) value picks the
fallback. -/
def jsOrNum (v d : ℚ) : ℚ := if v = 0 then d else v

/-- The padding fractions applyPaddingToRect actually uses when called with
its default parameters: `options.paddingBoxVertical or-else 0.6` and
`options.paddingBoxHorizontal or-else 0.8`. -/
def effectivePaddingVertical (o : DetectionOptsPartial) : ℚ :=
  jsOrNum (mergedPaddingBoxVertical o) (3/5)

def effectivePaddingHorizontal (o : DetectionOptsPartial) : ℚ :=
  jsOrNum (mergedPaddingBoxHorizontal o) (4/5)

/-- applyPaddingToRect as invoked by postprocessDetection: both padding
parameters omitted, hence resolved by the default-parameter expressions. -/
def applyPaddingToRectDefaults (o : DetectionOptsPartial) (rect : Box) (maxW maxH : ℚ) : Box :=
  applyPaddingToRect rect maxW maxH (effectivePaddingVertical o) (effectivePaddingHorizontal o)

/-! ### Recognition service (src/processor/recognition.ts) -/

/-- A recognized text region. -/
structure RecognitionResult where
  text : String
  box : Box
  confidence : ℚ
deriving Repr, DecidableEq

/-- The comparator of sortResultsByReadingOrder: boxes on roughly the same
line (vertical distance below a quarter of their combined heights) compare by
x, otherwise by y. -/
def cmpReadingOrder (a b : RecognitionResult) : ℚ :=
  if |a.box.y - b.box.y| < (a.box.height + b.box.height) / 4 then a.box.x - b.box.x
  else a.box.y - b.box.y

/-- Same-line test of the comparator. -/
def sameLine (a b : RecognitionResult) : Prop :=
  |a.box.y - b.box.y| < (a.box.height + b.box.height) / 4

instance (a b : RecognitionResult) : Decidable (sameLine a b) := by
  unfold sameLine; infer_instance

/-- The non-strict order induced by the comparator (a sorts no later than b). -/
def leReadingOrder (a b : RecognitionResult) : Bool :=
  decide (cmpReadingOrder a b ≤ 0)

/-- Stable insertion into a sorted list: place the new element before the
first entry it compares no later than, hence after all earlier-inserted
equals. -/
def ordInsert (le : RecognitionResult → RecognitionResult → Bool)
    (a : RecognitionResult) : List RecognitionResult → List RecognitionResult
  | [] => [a]
  | b :: l => if le a b then a :: b :: l else b :: ordInsert le a l

/-- Stable sort by repeated insertion, first input element inserted last so
that input order is kept among equals.  ECMAScript 2019 requires
Array.prototype.sort to be stable, and for a consistent comparator every
stable sort produces the same list, so this embeds the source's
`[...results].sort(comparator)`. -/
def stableSortBy (le : RecognitionResult → RecognitionResult → Bool) :
    List RecognitionResult → List RecognitionResult
  | [] => []
  | a :: l => ordInsert le a (stableSortBy le l)

/-- RecognitionService.sortResultsByReadingOrder. -/
def sortResultsByReadingOrder (results : List RecognitionResult) : List RecognitionResult :=
  stableSortBy leReadingOrder results

/-- The argmax accumulator step of ctcLabelDecode: replace the accumulator
only on a strictly larger score. -/
def stepAcc (acc : ℚ × ℤ) (p : ℕ × ℚ) : ℚ × ℤ :=
  if acc.1 < p.2 then (p.2, (p.1 : ℤ)) else acc

/-- Per-time-step scan of ctcLabelDecode: maxScore starts at 0 and
maxScoreIndex at -1; entries are visited in index order. -/
def argmaxStep (row : List ℚ) : ℚ × ℤ :=
  row.enum.foldl stepAcc (0, -1)

/-- JavaScript `dict[i] or-else empty`: an out-of-range (in particular
negative) index yields the empty string. -/
def dictLookup (dict : List String) (i : ℤ) : String :=
  if 0 ≤ i then dict.getD i.toNat emptyString else emptyString

/-- What one time step contributes: nothing when the argmax index is 0 (the
CTC blank), otherwise the dictionary character and the max score. -/
def emitStep (dict : List String) (p : ℚ × ℤ) : Option (String × ℚ) :=
  if p.2 = 0 then none else some (dictLookup dict p.2, p.1)

/-- RecognitionService.ctcLabelDecode over flat T × C logits: per step take
the strict argmax (accumulator (0, -1)), skip blank steps, concatenate the
surviving characters and average the surviving scores; an empty score list
divides 0 by 0, i.e. NaN, modelled as `none`. -/
def logitRow (logits : List ℚ) (numClasses t : ℕ) : List ℚ :=
  (logits.drop (t * numClasses)).take numClasses

def ctcLabelDecode (dict : List String) (logits : List ℚ) (seqLen numClasses : ℕ) :
    String × Option ℚ :=
  let steps : List (ℚ × ℤ) := (List.range seqLen).map
    (fun t => argmaxStep (logitRow logits numClasses t))
  let emitted : List (String × ℚ) := steps.filterMap (emitStep dict)
  (String.join (emitted.map Prod.fst),
    if emitted.length = 0 then none
    else some ((emitted.map Prod.snd).sum / (emitted.length : ℚ)))

/-! ### Pipeline (src/processor/paddle-ocr.ts) -/

/-- String of a byte list as JavaScript renders a Uint8Array: decimal values
joined by commas. -/
def natListToString (l : List ℕ) : String :=
  String.intercalate ("," ) (l.map (fun n => toString n))

/-- The exact message thrown by PaddleOcrService.recognize on invalid input:
it interpolates the raw data and the image dimensions, not the computed
channel count. -/
def recognizeErrorMessage (w h : ℕ) (data : List ℕ) : String :=
  "Invalid input data: " ++ natListToString data ++ " for image size " ++ toString w ++
    "x" ++ toString h ++ ". Expected 1, 3, or 4 channels."

/-- Input validation of PaddleOcrService.recognize: channels =
data.length / (width·height) must be an integer between 1 and 4 or the call
throws.  A rational is the JavaScript number; `den = 1` is Number.isInteger. -/
def validateRecognizeInput (w h : ℕ) (data : List ℕ) : Except String Unit :=
  let channels : ℚ := (data.length : ℚ) / ((w : ℚ) * (h : ℚ))
  if channels.den ≠ 1 ∨ channels < 1 ∨ 4 < channels then
    Except.error (recognizeErrorMessage w h data)
  else Except.ok ()

/-- The grouped OCR result of processRecognition. -/
structure PaddleOcrResult where
  text : String
  lines : List (List RecognitionResult)
  confidence : ℚ
deriving Repr, DecidableEq

/-- The grouping loop of processRecognition: compare each item's y to the
previous item's y against half the running average height of the current
line; append with a space or start a new line with a newline. -/
def processRecognitionLoop :
    List RecognitionResult → List (List RecognitionResult) → List RecognitionResult →
      String → ℚ → RecognitionResult → List (List RecognitionResult) × String
  | [], linesAcc, currentLine, fullText, _, _ =>
    (if 0 < currentLine.length then linesAcc ++ [currentLine] else linesAcc, fullText)
  | cur :: rest, linesAcc, currentLine, fullText, avgHeight, prev =>
    let verticalGap : ℚ := |cur.box.y - prev.box.y|
    let thr : ℚ := avgHeight * (1/2)
    if verticalGap ≤ thr then
      let cl := currentLine ++ [cur]
      processRecognitionLoop rest linesAcc cl (fullText ++ " " ++ cur.text)
        (((cl.map (fun r => r.box.height)).sum) / (cl.length : ℚ)) cur
    else
      processRecognitionLoop rest (linesAcc ++ [currentLine]) [cur]
        (fullText ++ "\n" ++ cur.text) cur.box.height cur

/-- PaddleOcrService.processRecognition: empty input returns the zero result
unchanged; otherwise overall confidence is the mean of the item confidences
and the items are grouped into lines. -/
def processRecognition (recognition : List RecognitionResult) : PaddleOcrResult :=
  match recognition with
  | [] => { text := emptyString, lines := [], confidence := 0 }
  | r0 :: rest =>
    let confidence : ℚ :=
      ((recognition.map (fun r => r.confidence)).sum) / (recognition.length : ℚ)
    let lt := processRecognitionLoop rest [] [r0] r0.text r0.box.height r0
    { text := lt.2, lines := lt.1, confidence := confidence }

/-- List-of-characters containment helpers, used to state that a string does
not mention a value. -/
def startsWithSeq : List Char → List Char → Bool
  | [], _ => true
  | _ :: _, [] => false
  | p :: ps, c :: cs => p = c && startsWithSeq ps cs

def containsSeq (pat : List Char) : List Char → Bool
  | [] => pat.isEmpty
  | c :: cs => startsWithSeq pat (c :: cs) || containsSeq pat cs

/-- A string mentions another if the latter occurs in it as a substring. -/
def mentions (msg val : String) : Prop := containsSeq val.data msg.data = true

instance (msg val : String) : Decidable (mentions msg val) := by
  unfold mentions; infer_instance

/-! ### General helper lemmas -/

lemma length_flatMap_const {α β : Type} (l : List α) (f : α → List β) (m : ℕ)
    (hf : ∀ a ∈ l, (f a).length = m) : (l.flatMap f).length = l.length * m := by
  induction l with
  | nil => simp
  | cons a t ih =>
    simp only [List.flatMap_cons, List.length_append, List.length_cons]
    rw [hf a (List.mem_cons_self a t), ih (fun b hb => hf b (List.mem_cons_of_mem a hb))]
    ring

lemma length_chunk_pad (chunk : List ℕ) (pad : List ℕ) (m : ℕ)
    (hc : chunk.length ≤ m) (hp : pad.length = m) :
    (chunk ++ pad.drop chunk.length).length = m := by
  simp [List.length_append, List.length_drop, hp]
  omega

lemma length_foldl_preserved {α : Type} (step : List ℕ → α → List ℕ) (l : List α)
    (hstep : ∀ d a, (step d a).length = d.length) :
    ∀ d : List ℕ, (l.foldl step d).length = d.length := by
  induction l with
  | nil => intro d; rfl
  | cons a t ih => intro d; rw [List.foldl_cons, ih, hstep]

lemma filterMap_eq_map_of_some {α β : Type} (l : List α) (g : α → Option β) (f : α → β)
    (h : ∀ a ∈ l, g a = f a) : l.filterMap g = l.map f := by
  induction l with
  | nil => rfl
  | cons a t ih =>
    rw [List.filterMap_cons, h a (List.mem_cons_self a t), List.map_cons,
      ih (fun b hb => h b (List.mem_cons_of_mem a hb))]

/-! ### Claim C9 : processRecognition on an empty list -/

/-- C9. processRecognition applied to an empty list of recognition results
returns exactly text = empty, lines = [], confidence = 0: the confidence is
the plain number 0 (the early return happens before the mean is computed, so
no 0/0 NaN), and no empty line group is emitted. -/
theorem claim_C9 : processRecognition [] = { text := "", lines := [], confidence := 0 } := rfl

/-! ### Claim C8 : zero padding fractions fall back to 0.6 / 0.8 -/

/-- C8. With the detection options explicitly setting paddingBoxVertical = 0
and paddingBoxHorizontal = 0, applyPaddingToRect does not use 0: the
JavaScript or-else in its default parameters substitutes 0.6 = 3/5
(vertical) and 0.8 = 4/5 (horizontal), so boxes are still inflated by those
fractions of the box height. -/
theorem claim_C8 :
    effectivePaddingVertical { paddingBoxVertical := some 0, paddingBoxHorizontal := some 0 }
        = 3/5
    ∧ effectivePaddingHorizontal { paddingBoxVertical := some 0, paddingBoxHorizontal := some 0 }
        = 4/5
    ∧ ∀ (rect : Box) (maxW maxH : ℚ),
        applyPaddingToRectDefaults
            { paddingBoxVertical := some 0, paddingBoxHorizontal := some 0 } rect maxW maxH
          = applyPaddingToRect rect maxW maxH (3/5) (4/5) := by
  refine ⟨rfl, rfl, fun rect maxW maxH => rfl⟩

/-! ### Claim C10 : an all-nonpositive time step is not a blank -/

lemma foldl_stepAcc_const (l : List ℚ) :
    ∀ (n : ℕ) (acc : ℚ × ℤ), (∀ x ∈ l, x ≤ acc.1) →
      (List.enumFrom n l).foldl stepAcc acc = acc := by
  induction l with
  | nil => intro n acc _; rfl
  | cons a t ih =>
    intro n acc h
    have ha : a ≤ acc.1 := h a (List.mem_cons_self a t)
    have hstep : stepAcc acc (n, a) = acc := by
      unfold stepAcc
      simp only [not_lt.mpr ha, if_false]
    rw [List.enumFrom_cons, List.foldl_cons, hstep]
    exact ih (n + 1) acc (fun x hx => h x (List.mem_cons_of_mem a hx))

/-- C10. A time step at which every class score is nonpositive is not treated
as a CTC blank: the accumulator (initialized to maxScore = 0,
maxScoreIndex = -1) is never updated, the step is not skipped (its index -1
is not 0), it emits the empty string (out-of-range dictionary lookup) and
contributes the score 0 to the confidence average. -/
theorem claim_C10 (dict : List String) (row : List ℚ) (h : ∀ x ∈ row, x ≤ 0) :
    argmaxStep row = (0, -1) ∧ emitStep dict (argmaxStep row) = some ("", 0) := by
  have harg : argmaxStep row = (0, -1) := by
    unfold argmaxStep
    rw [List.enum]
    exact foldl_stepAcc_const row 0 (0, -1) h
  refine ⟨harg, ?_⟩
  rw [harg]
  unfold emitStep dictLookup emptyString
  norm_num

/-- Witness for C10 at the concrete step scores [0, -1]. -/
theorem claim_C10_witness :
    argmaxStep [0, -1] = (0, -1) ∧ emitStep ["a"] (argmaxStep [0, -1]) = some ("", 0) :=
  claim_C10 ["a"] [0, -1] (by intro x hx; fin_cases hx <;> norm_num)

/-! ### Claim C1 : buffer-length invariant of the Image operations -/

lemma crop_data_length (img : Image) (x y w h : ℕ) (res : Image)
    (hres : img.crop x y w h = some res) : res.data.length = w * h * img.channels := by
  unfold Image.crop at hres
  split at hres
  · exact Option.noConfusion hres
  · have hres' := Option.some.inj hres
    subst hres'
    simp only
    rw [length_flatMap_const _ _ (w * img.channels) ?_, List.length_range]
    · ring
    · intro j _
      rw [length_flatMap_const _ _ img.channels ?_, List.length_range]
      intro i _
      rw [List.length_append, List.length_replicate]
      have : ((img.data.drop (((y + j) * img.width + (x + i)) * img.channels)).take
          img.channels).length ≤ img.channels := by
        simp [List.length_take]
      omega

lemma resizeData_length (img : Image) (width height : ℕ) :
    (resizeData img width height).length = width * height * img.channels := by
  unfold resizeData
  rw [length_flatMap_const _ _ (width * img.channels) ?_, List.length_range]
  · ring
  · intro y _
    rw [length_flatMap_const _ _ img.channels ?_, List.length_range]
    intro outx _
    simp

lemma resize_data_length (img : Image) (wo ho : Option ℕ) (res : Image)
    (hres : img.resize wo ho = some res) :
    res.data.length = res.width * res.height * res.channels := by
  simp only [Image.resize] at hres
  split at hres
  · exact Option.noConfusion hres
  · have hres' := Option.some.inj hres
    subst hres'
    exact resizeData_length img _ _

lemma threshold_data_length (img : Image) (t : Option ℚ) :
    (img.threshold t).data.length = img.width * img.height * 1 := by
  unfold Image.threshold
  simp

lemma chamferRelax_length (w h : ℕ) (offs : List (ℤ × ℤ)) (dist : List ℕ) (x y : ℕ) :
    (chamferRelax w h offs dist x y).length = dist.length := by
  simp only [chamferRelax]
  split
  · rfl
  · simp

lemma dilate_data_length (img : Image) (k : ℕ) (res : Image)
    (hres : img.dilate k = some res) :
    res.data.length = img.width * img.height * 1 := by
  simp only [Image.dilate] at hres
  split at hres
  · exact Option.noConfusion hres
  · have hres' := Option.some.inj hres
    subst hres'
    simp

lemma paddedData_length (img : Image) (top left newW newH : ℕ) (colorBytes : List ℕ)
    (hc : colorBytes.length = 4) :
    (paddedData img top left newW newH colorBytes).length = newW * newH * 4 := by
  unfold paddedData
  rw [length_flatMap_const _ _ (newW * 4) ?_, List.length_range]
  · ring
  · intro y _
    rw [length_flatMap_const _ _ 4 ?_, List.length_range]
    intro x _
    simp only
    split
    · apply length_chunk_pad _ _ 4 _ hc
      simp [List.length_take]
    · exact hc

lemma padding_data_length (img : Image) (o : PaddingOptions) :
    (img.padding o).data.length = (img.padding o).width * (img.padding o).height * 4 := by
  unfold Image.padding
  simp only
  rw [paddedData_length]
  simp

/-- C1 (amended). crop, resize, threshold and dilate return buffers
satisfying the invariant bytes.length = width·height·channels; padding always
returns a buffer of newW·newH·4 bytes while copying the source's channels
field, so the padding result satisfies the invariant exactly when the source
has 4 channels (an RGBA source); for 1- or 3-channel sources the returned
buffer violates it. -/
theorem claim_C1 :
    (∀ (img : Image) (x y w h : ℕ) (res : Image),
        img.crop x y w h = some res → res.invariantHolds)
    ∧ (∀ (img : Image) (wo ho : Option ℕ) (res : Image),
        img.resize wo ho = some res → res.invariantHolds)
    ∧ (∀ (img : Image) (t : Option ℚ), (img.threshold t).invariantHolds)
    ∧ (∀ (img : Image) (k : ℕ) (res : Image),
        img.dilate k = some res → res.invariantHolds)
    ∧ (∀ (img : Image) (o : PaddingOptions),
        (img.padding o).data.length = (img.padding o).width * (img.padding o).height * 4)
    ∧ (∀ (img : Image) (o : PaddingOptions),
        img.channels = 4 → (img.padding o).invariantHolds) := by
  refine ⟨?_, ?_, ?_, ?_, padding_data_length, ?_⟩
  · intro img x y w h res hres
    have hlen := crop_data_length img x y w h res hres
    unfold Image.crop at hres
    split at hres
    · exact absurd hres (by simp)
    · have hres' := Option.some.inj hres
      subst hres'
      exact hlen
  · intro img wo ho res hres
    exact resize_data_length img wo ho res hres
  · intro img t
    unfold Image.invariantHolds Image.threshold
    simp
  · intro img k res hres
    simp only [Image.dilate] at hres
    split at hres
    · exact Option.noConfusion hres
    · have hres' := Option.some.inj hres
      subst hres'
      unfold Image.invariantHolds
      simp
  · intro img o hch
    unfold Image.invariantHolds
    rw [padding_data_length img o]
    have : (img.padding o).channels = img.channels := by
      unfold Image.padding
      rfl
    rw [this, hch]

/-- Counterexample to C1 as stated: padding a 1×1 single-channel image by 1
pixel returns a 3×3 buffer whose channels field is 1 but whose byte count is
3·3·4 = 36 ≠ 3·3·1. -/
theorem claim_C1_counterexample :
    (Image.padding ⟨1, 1, 1, [7]⟩ { padding := some 1 }).channels = 1
    ∧ (Image.padding ⟨1, 1, 1, [7]⟩ { padding := some 1 }).width = 3
    ∧ (Image.padding ⟨1, 1, 1, [7]⟩ { padding := some 1 }).height = 3
    ∧ (Image.padding ⟨1, 1, 1, [7]⟩ { padding := some 1 }).data.length = 36
    ∧ ¬ (Image.padding ⟨1, 1, 1, [7]⟩ { padding := some 1 }).invariantHolds := by
  decide

/-- Witness for C1 instantiating every hypothesized conjunct at concrete
images. -/
theorem claim_C1_witness :
    ((Image.crop ⟨1, 1, 1, [5]⟩ 0 0 1 1 = some ⟨1, 1, 1, [5]⟩)
      ∧ (⟨1, 1, 1, [5]⟩ : Image).invariantHolds)
    ∧ ((Image.resize ⟨1, 1, 0, []⟩ (some 1) (some 1) = some ⟨1, 1, 0, []⟩)
      ∧ (⟨1, 1, 0, []⟩ : Image).invariantHolds)
    ∧ (Image.threshold ⟨1, 1, 1, [200]⟩ none).invariantHolds
    ∧ ((Image.dilate ⟨1, 1, 1, [255]⟩ 1 = some ⟨1, 1, 1, [255]⟩)
      ∧ (⟨1, 1, 1, [255]⟩ : Image).invariantHolds)
    ∧ (Image.padding ⟨1, 1, 4, [1, 2, 3, 4]⟩ { padding := some 0 }).data.length
        = (Image.padding ⟨1, 1, 4, [1, 2, 3, 4]⟩ { padding := some 0 }).width
          * (Image.padding ⟨1, 1, 4, [1, 2, 3, 4]⟩ { padding := some 0 }).height * 4
    ∧ (Image.padding ⟨1, 1, 4, [1, 2, 3, 4]⟩ { padding := some 0 }).invariantHolds := by
  have hcrop : Image.crop ⟨1, 1, 1, [5]⟩ 0 0 1 1 = some ⟨1, 1, 1, [5]⟩ := by decide
  have hresize : Image.resize ⟨1, 1, 0, []⟩ (some 1) (some 1) = some ⟨1, 1, 0, []⟩ := by
    decide
  have hdilate : Image.dilate ⟨1, 1, 1, [255]⟩ 1 = some ⟨1, 1, 1, [255]⟩ := by decide
  exact ⟨⟨hcrop, claim_C1.1 _ 0 0 1 1 _ hcrop⟩,
    ⟨hresize, claim_C1.2.1 _ (some 1) (some 1) _ hresize⟩,
    claim_C1.2.2.1 ⟨1, 1, 1, [200]⟩ none,
    ⟨hdilate, claim_C1.2.2.2.1 _ 1 _ hdilate⟩,
    claim_C1.2.2.2.2.1 ⟨1, 1, 4, [1, 2, 3, 4]⟩ { padding := some 0 },
    claim_C1.2.2.2.2.2 ⟨1, 1, 4, [1, 2, 3, 4]⟩ { padding := some 0 } rfl⟩

/-! ### Claim C3 : resize dimensions are multiples of 32 -/

lemma snap32_dvd (d0 : ℕ) : 32 ∣ snap32 d0 := by
  unfold snap32
  by_cases h : d0 % 32 = 0
  · simp only [h, ne_eq, not_true_eq_false, if_false]
    exact Nat.dvd_of_mod_eq_zero h
  · simp only [ne_eq, h, not_false_iff, if_true]
    rcases max_choice (d0 / 32 * 32) 32 with hm | hm
    · rw [hm]
      exact dvd_mul_left 32 (d0 / 32)
    · rw [hm]

lemma snap32_ge_iff (d0 : ℕ) : 32 ≤ snap32 d0 ↔ 1 ≤ d0 := by
  unfold snap32
  by_cases h : d0 % 32 = 0
  · simp only [h, ne_eq, not_true_eq_false, if_false]
    constructor
    · omega
    · intro h1
      exact Nat.le_of_dvd (by omega) (Nat.dvd_of_mod_eq_zero h)
  · simp only [ne_eq, h, not_false_iff, if_true]
    constructor
    · intro _; omega
    · intro _; exact le_max_right _ _

lemma toNat_floor_ge_one_iff (q : ℚ) : 1 ≤ (⌊q⌋).toNat ↔ 1 ≤ q := by
  have h1 : 1 ≤ (⌊q⌋).toNat ↔ (1 : ℤ) ≤ ⌊q⌋ := by omega
  rw [h1, Int.le_floor]
  norm_num

/-- C3 (amended). For every image with width ≥ 1 and height ≥ 1,
calculateResizeDimensions returns dimensions that are multiples of 32, and a
dimension is ≥ 32 exactly when the scaled size floor(src·scale) is at least
1; when that floor is 0 the dimension is left at 0 (0 is divisible by 32, so
the snapping branch is skipped), contradicting the claim's positivity. -/
theorem claim_C3 (srcW srcH maxSide : ℕ) (_hw : 1 ≤ srcW) (_hh : 1 ≤ srcH) :
    32 ∣ (calculateResizeDimensions srcW srcH maxSide).dstWidth
    ∧ 32 ∣ (calculateResizeDimensions srcW srcH maxSide).dstHeight
    ∧ (32 ≤ (calculateResizeDimensions srcW srcH maxSide).dstWidth ↔
        1 ≤ (srcW : ℚ) * detScaleRatio srcW srcH maxSide)
    ∧ (32 ≤ (calculateResizeDimensions srcW srcH maxSide).dstHeight ↔
        1 ≤ (srcH : ℚ) * detScaleRatio srcW srcH maxSide) := by
  refine ⟨snap32_dvd _, snap32_dvd _, ?_, ?_⟩
  · rw [show (calculateResizeDimensions srcW srcH maxSide).dstWidth
      = snap32 ((⌊(srcW : ℚ) * detScaleRatio srcW srcH maxSide⌋).toNat) from rfl]
    rw [snap32_ge_iff, toNat_floor_ge_one_iff]
  · rw [show (calculateResizeDimensions srcW srcH maxSide).dstHeight
      = snap32 ((⌊(srcH : ℚ) * detScaleRatio srcW srcH maxSide⌋).toNat) from rfl]
    rw [snap32_ge_iff, toNat_floor_ge_one_iff]

/-- Counterexample to C3 as stated: a 1 × 2000 image (width ≥ 1, height ≥ 1)
with the default maxSideLength 960 yields dstWidth = 0, which is not a
positive multiple of 32 and not ≥ 32. -/
theorem claim_C3_counterexample :
    1 ≤ (1 : ℕ) ∧ 1 ≤ (2000 : ℕ)
    ∧ (calculateResizeDimensions 1 2000 960).dstWidth = 0
    ∧ ¬ 32 ≤ (calculateResizeDimensions 1 2000 960).dstWidth := by
  refine ⟨le_refl 1, by norm_num, ?_, ?_⟩
  · norm_num [calculateResizeDimensions, detScaleRatio, snap32]
  · norm_num [calculateResizeDimensions, detScaleRatio, snap32]

/-- Witness for C3 at the spec's own example E4 (1000 × 500, maxSide 960). -/
theorem claim_C3_witness :
    32 ∣ (calculateResizeDimensions 1000 500 960).dstWidth
    ∧ 32 ∣ (calculateResizeDimensions 1000 500 960).dstHeight
    ∧ (32 ≤ (calculateResizeDimensions 1000 500 960).dstWidth ↔
        1 ≤ (1000 : ℚ) * detScaleRatio 1000 500 960)
    ∧ (32 ≤ (calculateResizeDimensions 1000 500 960).dstHeight ↔
        1 ≤ (500 : ℚ) * detScaleRatio 1000 500 960) :=
  claim_C3 1000 500 960 (by norm_num) (by norm_num)

/-! ### Claim C4 : detector boxes stay inside the source image -/

/-- C4. Every box produced by the detector's postprocessing map
(applyPaddingToRect inside the dstWidth × dstHeight probability map followed
by convertToOriginalCoordinates) satisfies 0 ≤ x, 0 ≤ y, x + width ≤ srcW and
y + height ≤ srcH: the left/top sides are clamped at 0 and the width/height
are recomputed against the remaining space.  The resize parameters are those
the detector builds: scale = dst/src with positive source and destination
dimensions; the box hypotheses say the contour box lies inside the map. -/
theorem claim_C4 (rp : ResizeDims) (rect : Box) (pv ph : ℚ)
    (_hsw : rp.scaleWidth = (rp.dstWidth : ℚ) / (rp.srcWidth : ℚ))
    (_hsh : rp.scaleHeight = (rp.dstHeight : ℚ) / (rp.srcHeight : ℚ))
    (_hw : 0 < rp.srcWidth) (_hh : 0 < rp.srcHeight)
    (_hdw : 0 < rp.dstWidth) (_hdh : 0 < rp.dstHeight)
    (_hx : 0 ≤ rect.x) (_hy : 0 ≤ rect.y)
    (_hxw : rect.x + rect.width ≤ (rp.dstWidth : ℚ))
    (_hyh : rect.y + rect.height ≤ (rp.dstHeight : ℚ)) :
    0 ≤ (detectorBoxPostprocess rect rp pv ph).x
    ∧ 0 ≤ (detectorBoxPostprocess rect rp pv ph).y
    ∧ (detectorBoxPostprocess rect rp pv ph).x + (detectorBoxPostprocess rect rp pv ph).width
        ≤ (rp.srcWidth : ℚ)
    ∧ (detectorBoxPostprocess rect rp pv ph).y + (detectorBoxPostprocess rect rp pv ph).height
        ≤ (rp.srcHeight : ℚ) := by
  unfold detectorBoxPostprocess convertToOriginalCoordinates
  refine ⟨le_max_left _ _, le_max_left _ _, ?_, ?_⟩
  · have h := min_le_left
      ((rp.srcWidth : ℚ) - max 0 (jsRound ((applyPaddingToRect rect (rp.dstWidth : ℚ)
        (rp.dstHeight : ℚ) pv ph).x / rp.scaleWidth) : ℚ))
      ((jsRound ((applyPaddingToRect rect (rp.dstWidth : ℚ) (rp.dstHeight : ℚ) pv
        ph).width / rp.scaleWidth) : ℚ))
    simp only
    linarith
  · have h := min_le_left
      ((rp.srcHeight : ℚ) - max 0 (jsRound ((applyPaddingToRect rect (rp.dstWidth : ℚ)
        (rp.dstHeight : ℚ) pv ph).y / rp.scaleHeight) : ℚ))
      ((jsRound ((applyPaddingToRect rect (rp.dstWidth : ℚ) (rp.dstHeight : ℚ) pv
        ph).height / rp.scaleHeight) : ℚ))
    simp only
    linarith

/-- Witness for C4 at the spec's example E4/E5 numbers: source 1000 × 500,
map 960 × 480, box (100, 100, 40, 20), default padding fractions. -/
theorem claim_C4_witness :
    0 ≤ (detectorBoxPostprocess ⟨100, 100, 40, 20⟩
        ⟨1000, 500, 960, 480, 24/25, 24/25⟩ (2/5) (3/5)).x
    ∧ 0 ≤ (detectorBoxPostprocess ⟨100, 100, 40, 20⟩
        ⟨1000, 500, 960, 480, 24/25, 24/25⟩ (2/5) (3/5)).y
    ∧ (detectorBoxPostprocess ⟨100, 100, 40, 20⟩
          ⟨1000, 500, 960, 480, 24/25, 24/25⟩ (2/5) (3/5)).x
        + (detectorBoxPostprocess ⟨100, 100, 40, 20⟩
          ⟨1000, 500, 960, 480, 24/25, 24/25⟩ (2/5) (3/5)).width
        ≤ ((1000 : ℕ) : ℚ)
    ∧ (detectorBoxPostprocess ⟨100, 100, 40, 20⟩
          ⟨1000, 500, 960, 480, 24/25, 24/25⟩ (2/5) (3/5)).y
        + (detectorBoxPostprocess ⟨100, 100, 40, 20⟩
          ⟨1000, 500, 960, 480, 24/25, 24/25⟩ (2/5) (3/5)).height
        ≤ ((500 : ℕ) : ℚ) :=
  claim_C4 ⟨1000, 500, 960, 480, 24/25, 24/25⟩ ⟨100, 100, 40, 20⟩ (2/5) (3/5)
    (by norm_num) (by norm_num) (by norm_num) (by norm_num) (by norm_num) (by norm_num)
    (by norm_num) (by norm_num) (by norm_num) (by norm_num)

/-! ### Claim C7 : recognize input validation -/

/-- C7 (amended). For positive dimensions, recognize's validation succeeds
exactly when data.length / (width·height) is an integer in 1..4; every
failure throws the fixed message that interpolates the raw data and the image
size — the computed channel count itself is not part of the message. -/
theorem claim_C7 (w h : ℕ) (data : List ℕ) (hw : 0 < w) (hh : 0 < h) :
    (validateRecognizeInput w h data = Except.ok () ↔
      ∃ c : ℕ, 1 ≤ c ∧ c ≤ 4 ∧ data.length = c * (w * h))
    ∧ ∀ e, validateRecognizeInput w h data = Except.error e →
        e = recognizeErrorMessage w h data := by
  have hwq : (0 : ℚ) < (w : ℚ) := by exact_mod_cast hw
  have hhq : (0 : ℚ) < (h : ℚ) := by exact_mod_cast hh
  have hwh : ((w : ℚ) * (h : ℚ)) ≠ 0 := by positivity
  constructor
  · simp only [validateRecognizeInput]
    split
    next hcond =>
      constructor
      · intro habs; exact absurd habs (by simp)
      · rintro ⟨c, hc1, hc4, hlen⟩
        exfalso
        have hch : ((data.length : ℚ)) / ((w : ℚ) * (h : ℚ)) = (c : ℚ) := by
          rw [hlen]; push_cast; field_simp
        rw [hch] at hcond
        rcases hcond with hden | hlt | hgt
        · exact hden (Rat.den_natCast c)
        · have : (1 : ℚ) ≤ (c : ℚ) := by exact_mod_cast hc1
          linarith
        · have : (c : ℚ) ≤ 4 := by exact_mod_cast hc4
          linarith
    next hcond =>
      push_neg at hcond
      obtain ⟨hden, hge, hle⟩ := hcond
      constructor
      · intro _
        have hnum : ((((data.length : ℚ) / ((w : ℚ) * (h : ℚ))).num : ℚ))
            = (data.length : ℚ) / ((w : ℚ) * (h : ℚ)) :=
          (Rat.den_eq_one_iff _).mp hden
        have hnum1 : 1 ≤ ((data.length : ℚ) / ((w : ℚ) * (h : ℚ))).num := by
          have : (1 : ℚ) ≤ ((((data.length : ℚ) / ((w : ℚ) * (h : ℚ))).num : ℚ)) := by
            rw [hnum]; exact hge
          exact_mod_cast this
        have hnum4 : ((data.length : ℚ) / ((w : ℚ) * (h : ℚ))).num ≤ 4 := by
          have : ((((data.length : ℚ) / ((w : ℚ) * (h : ℚ))).num : ℚ)) ≤ 4 := by
            rw [hnum]; exact hle
          exact_mod_cast this
        refine ⟨((data.length : ℚ) / ((w : ℚ) * (h : ℚ))).num.toNat, by omega, by omega, ?_⟩
        have hq : (data.length : ℚ)
            = ((data.length : ℚ) / ((w : ℚ) * (h : ℚ))) * ((w : ℚ) * (h : ℚ)) := by
          field_simp
        have hq2 : (data.length : ℚ)
            = ((((data.length : ℚ) / ((w : ℚ) * (h : ℚ))).num.toNat : ℕ) : ℚ)
              * ((w : ℚ) * (h : ℚ)) := by
          conv_lhs => rw [hq]
          rw [← hnum]
          congr 1
          have : ((((data.length : ℚ) / ((w : ℚ) * (h : ℚ))).num.toNat : ℤ))
              = ((data.length : ℚ) / ((w : ℚ) * (h : ℚ))).num :=
            Int.toNat_of_nonneg (by omega)
          exact_mod_cast this.symm
        exact_mod_cast hq2
      · intro _; rfl
  · simp only [validateRecognizeInput]
    split
    · intro e he; exact (Except.error.inj he).symm
    · intro e he; exact absurd he (by simp)

/-- Counterexample to C7 as stated: 3 bytes on a 2 × 1 image give the
non-integer channel count 3/2, the call throws, but the thrown message (the
raw data, the image size and a fixed tail) does not mention 1.5, the decimal
JavaScript rendering of the computed count. -/
theorem claim_C7_counterexample :
    ((((3 : ℚ)) / ((2 : ℚ) * (1 : ℚ))).den ≠ 1)
    ∧ validateRecognizeInput 2 1 [0, 0, 0]
        = Except.error (recognizeErrorMessage 2 1 [0, 0, 0])
    ∧ recognizeErrorMessage 2 1 [0, 0, 0]
        = "Invalid input data: 0,0,0 for image size 2x1. Expected 1, 3, or 4 channels."
    ∧ ¬ mentions (recognizeErrorMessage 2 1 [0, 0, 0]) ("1.5" ) := by
  refine ⟨by norm_num, ?_, by decide, by decide⟩
  norm_num [validateRecognizeInput]

/-- Witness for C7: a 1 × 1 image with 3 bytes (3 channels) passes
validation. -/
theorem claim_C7_witness : validateRecognizeInput 1 1 [1, 2, 3] = Except.ok () :=
  (claim_C7 1 1 [1, 2, 3] one_pos one_pos).1.mpr ⟨3, by norm_num, by norm_num, by norm_num⟩

/-! ### Claim C2 : the CTC greedy decode contract -/

lemma foldl_stepAcc_lt (l : List ℚ) (m : ℚ) :
    ∀ (n : ℕ) (acc : ℚ × ℤ), acc.1 < m → (∀ x ∈ l, x < m) →
      ((List.enumFrom n l).foldl stepAcc acc).1 < m := by
  induction l with
  | nil => intro n acc hacc _; exact hacc
  | cons a t ih =>
    intro n acc hacc h
    rw [List.enumFrom_cons, List.foldl_cons]
    have hnext : (stepAcc acc (n, a)).1 < m := by
      unfold stepAcc
      split
      · exact h a (List.mem_cons_self a t)
      · exact hacc
    exact ih (n + 1) _ hnext (fun x hx => h x (List.mem_cons_of_mem a hx))

lemma stepAcc_of_lt (acc : ℚ × ℤ) (n : ℕ) (a : ℚ) (h : acc.1 < a) :
    stepAcc acc (n, a) = (a, (n : ℤ)) := by
  unfold stepAcc
  rw [if_pos h]

lemma argmaxStep_append (pre post : List ℚ) (m : ℚ) (hm : 0 < m)
    (hpre : ∀ x ∈ pre, x < m) (hpost : ∀ x ∈ post, x ≤ m) :
    argmaxStep (pre ++ m :: post) = (m, (pre.length : ℤ)) := by
  unfold argmaxStep
  rw [List.enum, List.enumFrom_append, List.foldl_append, List.enumFrom_cons,
    List.foldl_cons]
  have hacc : ((List.enumFrom 0 pre).foldl stepAcc (0, -1)).1 < m :=
    foldl_stepAcc_lt pre m 0 (0, -1) hm hpre
  have hmid : stepAcc ((List.enumFrom 0 pre).foldl stepAcc (0, -1)) (0 + pre.length, m)
      = (m, (pre.length : ℤ)) := by
    rw [stepAcc_of_lt _ _ _ hacc]
    norm_num
  rw [hmid]
  exact foldl_stepAcc_const post (0 + pre.length + 1) (m, (pre.length : ℤ)) hpost

/-- The argmax scan picks position i when the score there is positive, all
earlier scores are strictly below it and all later scores do not exceed it. -/
lemma argmaxStep_of_peak (row : List ℚ) (i : ℕ) (hi : i < row.length)
    (hpos : 0 < row.getD i 0)
    (hpre : ∀ j, j < i → row.getD j 0 < row.getD i 0)
    (hpost : ∀ j, i < j → j < row.length → row.getD j 0 ≤ row.getD i 0) :
    argmaxStep row = (row.getD i 0, (i : ℤ)) := by
  have hdec : row = row.take i ++ row.getD i 0 :: row.drop (i + 1) := by
    rw [List.getD_eq_getElem row 0 hi, ← List.drop_eq_getElem_cons hi,
      List.take_append_drop]
  have hlen : (row.take i).length = i := by
    rw [List.length_take]
    omega
  have hpre' : ∀ x ∈ row.take i, x < row.getD i 0 := by
    intro x hx
    rcases List.mem_take_iff_getElem.mp hx with ⟨k, hk, hval⟩
    have hk' : k < i := lt_of_lt_of_le hk (min_le_left _ _)
    have : row.getD k 0 = x := by
      rw [List.getD_eq_getElem row 0 (show k < row.length by omega)]
      exact hval
    rw [← this]
    exact hpre k hk'
  have hpost' : ∀ x ∈ row.drop (i + 1), x ≤ row.getD i 0 := by
    intro x hx
    rcases List.mem_iff_getElem.mp hx with ⟨k, hk, hval⟩
    have hk2 : i + 1 + k < row.length := by
      have := hk
      rw [List.length_drop] at this
      omega
    have : row.getD (i + 1 + k) 0 = x := by
      rw [List.getD_eq_getElem row 0 hk2, ← List.getElem_drop row]
      exact hval
    rw [← this]
    exact hpost (i + 1 + k) (by omega) hk2
  conv_lhs => rw [hdec]
  rw [argmaxStep_append _ _ _ hpos hpre' hpost', hlen]

lemma logitRow_length (logits : List ℚ) (T C t : ℕ) (hlen : logits.length = T * C)
    (ht : t < T) : (logitRow logits C t).length = C := by
  unfold logitRow
  rw [List.length_take, List.length_drop, hlen]
  have : t * C + C ≤ T * C := by
    have h1 : t + 1 ≤ T := ht
    calc t * C + C = (t + 1) * C := by ring
    _ ≤ T * C := Nat.mul_le_mul_right C h1
  omega

/-- C2 (amended). The CTC decode contract, restricted to logit streams whose
per-step winning score is positive (as softmax scores are): if at every step
class 0 carries a positive score at least as large as every other class, the
decode returns empty text and NaN confidence (modelled none); if one fixed
class i (0 < i < C, within the dictionary) strictly dominates every other
class at every step with a positive score, the text is dict[i] repeated T
times and the confidence is the arithmetic mean of the per-step maxima.
Without the positivity restriction the accumulator stays at (0, -1) and the
step is neither a blank nor skipped, refuting the claim as stated. -/
theorem claim_C2 (dict : List String) (T C : ℕ) (logits : List ℚ)
    (hlen : logits.length = T * C) (hC : 0 < C) :
    ((∀ t, t < T → 0 < (logitRow logits C t).getD 0 0 ∧
        ∀ j, j < C → (logitRow logits C t).getD j 0 ≤ (logitRow logits C t).getD 0 0) →
      ctcLabelDecode dict logits T C = ("", none))
    ∧ ∀ i, 0 < i → i < C → i < dict.length → 0 < T →
        (∀ t, t < T →
          (∀ j, j < i → (logitRow logits C t).getD j 0 < (logitRow logits C t).getD i 0) ∧
          0 < (logitRow logits C t).getD i 0 ∧
          (∀ j, i < j → j < C →
            (logitRow logits C t).getD j 0 ≤ (logitRow logits C t).getD i 0)) →
        ctcLabelDecode dict logits T C =
          (String.join (List.replicate T (dict.getD i "")),
            some (((List.range T).map
              (fun t => (logitRow logits C t).getD i 0)).sum / ((T : ℕ) : ℚ))) := by
  constructor
  · intro hblank
    have hemit : ∀ s ∈ (List.range T).map (fun t => argmaxStep (logitRow logits C t)),
        emitStep dict s = none := by
      intro s hs
      rcases List.mem_map.mp hs with ⟨t, htmem, hval⟩
      have ht : t < T := List.mem_range.mp htmem
      obtain ⟨hpos, hle⟩ := hblank t ht
      have harg : argmaxStep (logitRow logits C t) = ((logitRow logits C t).getD 0 0, 0) := by
        have := argmaxStep_of_peak (logitRow logits C t) 0
          (by rw [logitRow_length logits T C t hlen ht]; exact hC) hpos
          (fun j hj => absurd hj (Nat.not_lt_zero j))
          (fun j hj0 hjl => hle j (by rw [logitRow_length logits T C t hlen ht] at hjl
                                      exact hjl))
        simpa using this
      rw [← hval, harg]
      unfold emitStep
      norm_num
    have hnil : ((List.range T).map
        (fun t => argmaxStep (logitRow logits C t))).filterMap (emitStep dict) = [] :=
      List.filterMap_eq_nil_iff.mpr hemit
    simp only [ctcLabelDecode, hnil]
    norm_num
    rfl
  · intro i hi0 hiC hidict hT hconst
    have hstep : ∀ t ∈ List.range T,
        emitStep dict (argmaxStep (logitRow logits C t))
          = some (dict.getD i "", (logitRow logits C t).getD i 0) := by
      intro t htmem
      have ht : t < T := List.mem_range.mp htmem
      obtain ⟨hpre, hpos, hpost⟩ := hconst t ht
      have hrl : (logitRow logits C t).length = C := logitRow_length logits T C t hlen ht
      have harg : argmaxStep (logitRow logits C t)
          = ((logitRow logits C t).getD i 0, (i : ℤ)) :=
        argmaxStep_of_peak (logitRow logits C t) i (by omega) hpos hpre
          (fun j hj0 hjl => hpost j hj0 (by omega))
      rw [harg]
      unfold emitStep dictLookup
      have hne : ((i : ℤ)) ≠ 0 := by exact_mod_cast Nat.pos_iff_ne_zero.mp hi0
      rw [if_neg hne, if_pos (Int.natCast_nonneg i), Int.toNat_natCast]
      rfl
    have hmap : ((List.range T).map
        (fun t => argmaxStep (logitRow logits C t))).filterMap (emitStep dict)
        = (List.range T).map
            (fun t => (dict.getD i "", (logitRow logits C t).getD i 0)) := by
      rw [List.filterMap_map]
      exact filterMap_eq_map_of_some _ _ _ hstep
    simp only [ctcLabelDecode, hmap]
    rw [List.map_map, List.map_map]
    have hfst : ((fun t => (dict.getD i "", (logitRow logits C t).getD i 0)) · |>.fst) =
        (fun _ : ℕ => dict.getD i "") := rfl
    have hjoin : (List.range T).map
        (Prod.fst ∘ fun t => (dict.getD i "", (logitRow logits C t).getD i 0))
        = List.replicate T (dict.getD i "") := by
      have := List.map_const' (List.range T) (dict.getD i "")
      rw [List.length_range] at this
      rw [← this]
      rfl
    rw [hjoin]
    have hlen2 : ((List.range T).map
        (fun t => (dict.getD i "", (logitRow logits C t).getD i 0))).length = T := by
      simp
    rw [hlen2]
    have hT0 : ¬ T = 0 := Nat.pos_iff_ne_zero.mp hT
    rw [if_neg hT0]
    rfl

/-- Counterexample to C2 as stated: on the single-step logits [0, -1] the
per-step argmax over classes is class 0 (score 0 strictly beats -1), yet the
decode returns confidence 0, not NaN: with every score nonpositive the
accumulator stays at (0, -1), the step is not recognized as a blank, and the
score 0 enters the average. -/
theorem claim_C2_counterexample :
    (logitRow [0, -1] 2 0).getD 1 0 < (logitRow [0, -1] 2 0).getD 0 0
    ∧ ctcLabelDecode ["", "a"] [0, -1] 1 2 = ("", some 0)
    ∧ (some (0 : ℚ)) ≠ none := by
  refine ⟨by norm_num [logitRow], ?_, by simp⟩
  norm_num [ctcLabelDecode, logitRow, argmaxStep, emitStep, stepAcc, dictLookup,
    emptyString, List.range_succ, List.enum, List.enumFrom, List.foldl,
    List.filterMap_cons, String.join]

/-- Witness for C2: the blank half at single-step logits [1, 0] (class 0
wins) and the constant-class half at two-step logits [0, 2, 0, 3] with class
1 winning both steps. -/
theorem claim_C2_witness :
    ctcLabelDecode ["", "a"] [1, 0] 1 2 = ("", none)
    ∧ ctcLabelDecode ["", "a"] [0, 2, 0, 3] 2 2 =
        (String.join (List.replicate 2 (["", "a"].getD 1 "")),
          some (((List.range 2).map
            (fun t => (logitRow [0, 2, 0, 3] 2 t).getD 1 0)).sum / ((2 : ℕ) : ℚ))) := by
  constructor
  · refine (claim_C2 ["", "a"] 1 2 [1, 0] (by norm_num) (by norm_num)).1 ?_
    intro t ht
    interval_cases t
    refine ⟨by norm_num [logitRow], ?_⟩
    intro j hj
    interval_cases j <;> norm_num [logitRow]
  · refine (claim_C2 ["", "a"] 2 2 [0, 2, 0, 3] (by norm_num) (by norm_num)).2 1
      (by norm_num) (by norm_num) (by norm_num) (by norm_num) ?_
    intro t ht
    interval_cases t
    · refine ⟨?_, by norm_num [logitRow], ?_⟩
      · intro j hj
        interval_cases j
        norm_num [logitRow]
      · intro j hj1 hj2
        omega
    · refine ⟨?_, by norm_num [logitRow], ?_⟩
      · intro j hj
        interval_cases j
        norm_num [logitRow]
      · intro j hj1 hj2
        omega

/-! ### Claim C6 : the reading-order sort -/

lemma cmpReadingOrder_neg (a b : RecognitionResult) :
    cmpReadingOrder b a = - cmpReadingOrder a b := by
  unfold cmpReadingOrder
  have hcond : (|b.box.y - a.box.y| < (b.box.height + a.box.height) / 4) ↔
      (|a.box.y - b.box.y| < (a.box.height + b.box.height) / 4) := by
    rw [abs_sub_comm, add_comm]
  by_cases h : |a.box.y - b.box.y| < (a.box.height + b.box.height) / 4
  · rw [if_pos h, if_pos (hcond.mpr h)]
    ring
  · rw [if_neg h, if_neg (fun hc => h (hcond.mp hc))]
    ring

lemma leReadingOrder_total (a b : RecognitionResult) :
    leReadingOrder a b = true ∨ leReadingOrder b a = true := by
  unfold leReadingOrder
  rcases le_or_lt (cmpReadingOrder a b) 0 with h | h
  · left; exact decide_eq_true h
  · right
    apply decide_eq_true
    rw [cmpReadingOrder_neg]
    linarith

lemma mem_ordInsert (le : RecognitionResult → RecognitionResult → Bool)
    (a x : RecognitionResult) : ∀ (l : List RecognitionResult),
    x ∈ ordInsert le a l ↔ x = a ∨ x ∈ l := by
  intro l
  induction l with
  | nil => simp [ordInsert]
  | cons b t ih =>
    unfold ordInsert
    split
    · simp [List.mem_cons]
    · simp only [List.mem_cons, ih]
      tauto

lemma pairwise_ordInsert (le : RecognitionResult → RecognitionResult → Bool)
    (htotal : ∀ x y, le x y = true ∨ le y x = true) (a : RecognitionResult) :
    ∀ (l : List RecognitionResult),
      (∀ x ∈ a :: l, ∀ y ∈ a :: l, ∀ z ∈ a :: l,
        le x y = true → le y z = true → le x z = true) →
      l.Pairwise (fun x y => le x y = true) →
      (ordInsert le a l).Pairwise (fun x y => le x y = true) := by
  intro l
  induction l with
  | nil => intro _ _; simp [ordInsert]
  | cons b t ih =>
    intro htr hl
    unfold ordInsert
    split
    next hab =>
      refine List.Pairwise.cons ?_ hl
      intro x hx
      rcases List.mem_cons.mp hx with rfl | hxt
      · exact hab
      · have hbx : le b x = true := (List.pairwise_cons.mp hl).1 x hxt
        exact htr a (by simp) b (by simp) x (by simp [hxt]) hab hbx
    next hab =>
      have hba : le b a = true := by
        rcases htotal a b with h | h
        · exact absurd h hab
        · exact h
      refine List.Pairwise.cons ?_ ?_
      · intro x hx
        rcases (mem_ordInsert le a x t).mp hx with rfl | hxt
        · exact hba
        · exact (List.pairwise_cons.mp hl).1 x hxt
      · refine ih ?_ (List.pairwise_cons.mp hl).2
        intro x hx y hy z hz
        have hsub : ∀ u : RecognitionResult, u ∈ a :: t → u ∈ a :: b :: t := by
          intro u hu
          rcases List.mem_cons.mp hu with rfl | hut
          · simp
          · simp [hut]
        exact htr x (hsub x hx) y (hsub y hy) z (hsub z hz)

lemma mem_stableSortBy (le : RecognitionResult → RecognitionResult → Bool)
    (x : RecognitionResult) : ∀ (l : List RecognitionResult),
    x ∈ stableSortBy le l ↔ x ∈ l := by
  intro l
  induction l with
  | nil => simp [stableSortBy]
  | cons a t ih =>
    unfold stableSortBy
    rw [mem_ordInsert, ih, List.mem_cons]

lemma pairwise_stableSortBy (le : RecognitionResult → RecognitionResult → Bool)
    (htotal : ∀ x y, le x y = true ∨ le y x = true) :
    ∀ (l : List RecognitionResult),
      (∀ x ∈ l, ∀ y ∈ l, ∀ z ∈ l, le x y = true → le y z = true → le x z = true) →
      (stableSortBy le l).Pairwise (fun x y => le x y = true) := by
  intro l
  induction l with
  | nil => intro _; simp [stableSortBy]
  | cons a t ih =>
    intro htr
    unfold stableSortBy
    refine pairwise_ordInsert le htotal a (stableSortBy le t) ?_ ?_
    · intro x hx y hy z hz
      have hsub : ∀ u : RecognitionResult, u ∈ a :: stableSortBy le t → u ∈ a :: t := by
        intro u hu
        rcases List.mem_cons.mp hu with rfl | hut
        · simp
        · simp [(mem_stableSortBy le u t).mp hut]
      exact htr x (hsub x hx) y (hsub y hy) z (hsub z hz)
    · refine ih ?_
      intro x hx y hy z hz
      exact htr x (List.mem_cons_of_mem a hx) y (List.mem_cons_of_mem a hy) z
        (List.mem_cons_of_mem a hz)

lemma sublist_ordInsert (le : RecognitionResult → RecognitionResult → Bool)
    (a : RecognitionResult) : ∀ (s s' : List RecognitionResult),
    s'.Sublist s → s'.Sublist (ordInsert le a s) := by
  intro s
  induction s with
  | nil =>
    intro s' h
    rw [List.sublist_nil.mp h]
    exact List.nil_sublist _
  | cons b t ih =>
    intro s' h
    unfold ordInsert
    split
    · exact h.cons a
    · cases h with
      | cons _ h' => exact (ih _ h').cons b
      | cons₂ _ h' => exact (ih _ h').cons₂ b

lemma cons_sublist_ordInsert (le : RecognitionResult → RecognitionResult → Bool)
    (a : RecognitionResult) : ∀ (s t : List RecognitionResult),
    t.Sublist s → (∀ d ∈ t, le a d = true) → (a :: t).Sublist (ordInsert le a s) := by
  intro s
  induction s with
  | nil =>
    intro t h _
    rw [List.sublist_nil.mp h]
    exact List.Sublist.refl [a]
  | cons b s' ih =>
    intro t h hd
    unfold ordInsert
    split
    next hab => exact h.cons₂ a
    next hab =>
      cases h with
      | cons _ h' => exact (ih t h' hd).cons b
      | cons₂ _ h' =>
        exact absurd (hd b (List.mem_cons_self b _)) (by simpa using hab)

lemma sublist_stableSortBy (le : RecognitionResult → RecognitionResult → Bool) :
    ∀ (l l' : List RecognitionResult), l'.Sublist l →
      l'.Pairwise (fun x y => le x y = true) → l'.Sublist (stableSortBy le l) := by
  intro l
  induction l with
  | nil =>
    intro l' h _
    rw [List.sublist_nil.mp h]
    exact List.nil_sublist _
  | cons a t ih =>
    intro l' h hp
    unfold stableSortBy
    cases h with
    | cons _ h' => exact sublist_ordInsert le a _ _ (ih _ h' hp)
    | cons₂ _ h' =>
      have hpc := List.pairwise_cons.mp hp
      exact cons_sublist_ordInsert le a _ _ (ih _ h' hpc.2) hpc.1

/-- C6 (amended). Restricted to inputs on which the reading-order comparator
is transitive, the sorted list is pairwise ordered as the claim states (same
line means by x ascending, otherwise by y ascending, ties allowed), and the
sort is stable: any comparator-nondecreasing sublist of the input, in
particular any pair of equal-comparing items in input order, survives as a
sublist of the output.  Without the transitivity restriction the comparator
can demand a cycle, which no output order satisfies. -/
theorem claim_C6 (results : List RecognitionResult)
    (htr : ∀ x ∈ results, ∀ y ∈ results, ∀ z ∈ results,
      leReadingOrder x y = true → leReadingOrder y z = true → leReadingOrder x z = true) :
    (sortResultsByReadingOrder results).Pairwise (fun a b =>
      (sameLine a b → a.box.x ≤ b.box.x) ∧ (¬ sameLine a b → a.box.y ≤ b.box.y))
    ∧ ∀ l' : List RecognitionResult, l'.Sublist results →
        l'.Pairwise (fun a b => leReadingOrder a b = true) →
        l'.Sublist (sortResultsByReadingOrder results) := by
  constructor
  · have hpw : (stableSortBy leReadingOrder results).Pairwise
        (fun x y => leReadingOrder x y = true) := by
      refine pairwise_stableSortBy leReadingOrder leReadingOrder_total results ?_
      exact htr
    unfold sortResultsByReadingOrder
    refine hpw.imp ?_
    intro a b hab
    have hle : cmpReadingOrder a b ≤ 0 := of_decide_eq_true hab
    unfold cmpReadingOrder at hle
    constructor
    · intro hsl
      unfold sameLine at hsl
      rw [if_pos hsl] at hle
      linarith
    · intro hsl
      unfold sameLine at hsl
      rw [if_neg hsl] at hle
      linarith
  · intro l' hsub hp
    exact sublist_stableSortBy leReadingOrder results l' hsub hp

/-- Counterexample to C6 as stated: three boxes whose pairwise constraints
form a cycle (A before B and B before C by x on shared lines, C before A by
y).  The sort returns them in input order, and the pair (A, C) appears with A
first although they are not on the same line and A's y is strictly larger —
the claimed ordering is violated (no permutation could satisfy it). -/
theorem claim_C6_counterexample :
    sortResultsByReadingOrder
        [⟨"A", ⟨0, 10, 1, 4⟩, 0⟩, ⟨"B", ⟨5, 5, 1, 30⟩, 0⟩, ⟨"C", ⟨10, 0, 1, 4⟩, 0⟩]
      = [⟨"A", ⟨0, 10, 1, 4⟩, 0⟩, ⟨"B", ⟨5, 5, 1, 30⟩, 0⟩, ⟨"C", ⟨10, 0, 1, 4⟩, 0⟩]
    ∧ ¬ sameLine ⟨"A", ⟨0, 10, 1, 4⟩, 0⟩ ⟨"C", ⟨10, 0, 1, 4⟩, 0⟩
    ∧ ¬ ((⟨"A", ⟨0, 10, 1, 4⟩, 0⟩ : RecognitionResult).box.y
        ≤ (⟨"C", ⟨10, 0, 1, 4⟩, 0⟩ : RecognitionResult).box.y) := by
  refine ⟨?_, ?_, by norm_num⟩
  · norm_num [sortResultsByReadingOrder, stableSortBy, ordInsert, leReadingOrder,
      cmpReadingOrder]
  · unfold sameLine
    norm_num

/-- Witness for C6 on a transitive instance: two boxes on one line sorted by
x, with the stable-sublist clause instantiated at the full input. -/
theorem claim_C6_witness :
    (sortResultsByReadingOrder [⟨"L", ⟨0, 0, 1, 4⟩, 0⟩, ⟨"R", ⟨5, 1, 1, 4⟩, 0⟩]).Pairwise
      (fun a b => (sameLine a b → a.box.x ≤ b.box.x) ∧ (¬ sameLine a b → a.box.y ≤ b.box.y))
    ∧ List.Sublist [⟨"L", ⟨0, 0, 1, 4⟩, 0⟩, ⟨"R", ⟨5, 1, 1, 4⟩, 0⟩]
        (sortResultsByReadingOrder [⟨"L", ⟨0, 0, 1, 4⟩, 0⟩, ⟨"R", ⟨5, 1, 1, 4⟩, 0⟩]) := by
  have h := claim_C6 [⟨"L", ⟨0, 0, 1, 4⟩, 0⟩, ⟨"R", ⟨5, 1, 1, 4⟩, 0⟩] ?_
  · refine ⟨h.1, ?_⟩
    refine h.2 _ (List.Sublist.refl _) ?_
    refine List.pairwise_cons.mpr ⟨?_, ?_⟩
    · intro b hb
      rcases List.mem_cons.mp hb with rfl | hb2
      · unfold leReadingOrder cmpReadingOrder
        apply decide_eq_true
        norm_num
      · simp at hb2
    · simp [List.pairwise_cons]
  · intro x hx y hy z hz hxy hyz
    fin_cases hx <;> fin_cases hy <;> fin_cases hz <;>
      simp_all [leReadingOrder, cmpReadingOrder]

/-! ### Claim C5 : contours partition the foreground -/

lemma bfsAux_nil (bin : Pix → Bool) (w h fuel : ℕ) (visited : Finset Pix) :
    bfsAux bin w h (fuel + 1) [] visited = ([], visited) := rfl

lemma bfsAux_cons (bin : Pix → Bool) (w h fuel : ℕ) (p : Pix) (rest : List Pix)
    (visited : Finset Pix) :
    bfsAux bin w h (fuel + 1) (p :: rest) visited
      = ((p :: (bfsAux bin w h fuel
            (rest ++ (neighborList w h p).filter (fun q => bin q && decide (q ∉ visited)))
            (visited ∪ ((neighborList w h p).filter
              (fun q => bin q && decide (q ∉ visited))).toFinset)).1),
         (bfsAux bin w h fuel
            (rest ++ (neighborList w h p).filter (fun q => bin q && decide (q ∉ visited)))
            (visited ∪ ((neighborList w h p).filter
              (fun q => bin q && decide (q ∉ visited))).toFinset)).2) := rfl

lemma mem_neighborList_grid (w h : ℕ) (p q : Pix) (hq : q ∈ neighborList w h p) :
    q ∈ gridF w h := by
  unfold neighborList at hq
  rcases List.mem_filterMap.mp hq with ⟨d, _, hd⟩
  simp only at hd
  split at hd
  next hcond =>
    have hval := Option.some.inj hd
    subst hval
    obtain ⟨h1, h2, h3, h4⟩ := hcond
    unfold gridF
    rw [Finset.mem_product]
    constructor
    · rw [Finset.mem_range]; omega
    · rw [Finset.mem_range]; omega
  next => exact Option.noConfusion hd

lemma nodup_neighborList (w h : ℕ) (p : Pix) : (neighborList w h p).Nodup := by
  unfold neighborList
  refine List.Nodup.filterMap ?_ (by decide)
  intro d1 d2 q hq1 hq2
  simp only [Option.mem_def] at hq1 hq2
  split at hq1
  next hc1 =>
    split at hq2
    next hc2 =>
      have hv1 := Option.some.inj hq1
      have hv2 := Option.some.inj hq2
      obtain ⟨h11, h12, h13, h14⟩ := hc1
      obtain ⟨h21, h22, h23, h24⟩ := hc2
      have hx : ((p.1 : ℤ) + d1.1).toNat = ((p.1 : ℤ) + d2.1).toNat := by
        rw [show ((p.1 : ℤ) + d1.1).toNat = q.1 by rw [← hv1]
          , show ((p.1 : ℤ) + d2.1).toNat = q.1 by rw [← hv2]]
      have hy : ((p.2 : ℤ) + d1.2).toNat = ((p.2 : ℤ) + d2.2).toNat := by
        rw [show ((p.2 : ℤ) + d1.2).toNat = q.2 by rw [← hv1]
          , show ((p.2 : ℤ) + d2.2).toNat = q.2 by rw [← hv2]]
      have hdx : d1.1 = d2.1 := by omega
      have hdy : d1.2 = d2.2 := by omega
      exact Prod.ext hdx hdy
    next => exact Option.noConfusion hq2
  next => exact Option.noConfusion hq1

lemma card_gridF (w h : ℕ) : (gridF w h).card = w * h := by
  unfold gridF
  rw [Finset.card_product, Finset.card_range, Finset.card_range]

/-- The linear pixel index y·w + x used by contours. -/
def atIdx (w : ℕ) (p : Pix) : ℕ := p.2 * w + p.1

lemma mem_seedsList (w h : ℕ) (p : Pix) : p ∈ seedsList w h ↔ p ∈ gridF w h := by
  unfold seedsList gridF
  rw [List.mem_flatMap, Finset.mem_product, Finset.mem_range, Finset.mem_range]
  constructor
  · rintro ⟨y, hy, hp⟩
    rcases List.mem_map.mp hp with ⟨x, hx, hval⟩
    rw [← hval]
    exact ⟨List.mem_range.mp hx, List.mem_range.mp hy⟩
  · rintro ⟨h1, h2⟩
    refine ⟨p.2, List.mem_range.mpr h2, ?_⟩
    exact List.mem_map.mpr ⟨p.1, List.mem_range.mpr h1, rfl⟩

lemma seedsList_map_atIdx (w : ℕ) : ∀ h : ℕ,
    (seedsList w h).map (atIdx w) = List.range (h * w) := by
  intro h
  induction h with
  | zero => simp [seedsList]
  | succ h ih =>
    have hseeds : seedsList w (h + 1) = seedsList w h ++ (List.range w).map
        (fun x => (x, h)) := by
      unfold seedsList
      rw [List.range_succ, List.flatMap_append]
      simp
    rw [hseeds, List.map_append, ih, List.map_map]
    have hrow : ((List.range w).map ((atIdx w) ∘ (fun x => (x, h))))
        = (List.range w).map (fun x => h * w + x) := by
      refine List.map_congr_left ?_
      intro x _
      unfold atIdx
      simp [Nat.add_comm]
    rw [hrow, Nat.succ_mul, List.range_add]

lemma nodup_seedsList (w h : ℕ) : (seedsList w h).Nodup := by
  refine List.Nodup.of_map (atIdx w) ?_
  rw [seedsList_map_atIdx]
  exact List.nodup_range (h * w)

/-- The flood-fill invariants: with a duplicate-free queue of marked
foreground pixels and enough fuel, the pop list is duplicate-free foreground,
every popped pixel was in the queue or unmarked at entry, the final visited
set is the entry set plus the pops, and every queued pixel is popped. -/
lemma bfsAux_spec (bin : Pix → Bool) (w h : ℕ) : ∀ (fuel : ℕ) (queue : List Pix)
    (visited : Finset Pix),
    queue.Nodup →
    (∀ p ∈ queue, p ∈ visited) →
    (∀ p ∈ queue, p ∈ goodSet bin w h) →
    queue.length + ((goodSet bin w h) \ visited).card < fuel →
    (bfsAux bin w h fuel queue visited).1.Nodup
    ∧ (∀ p ∈ (bfsAux bin w h fuel queue visited).1, p ∈ goodSet bin w h)
    ∧ (∀ p ∈ (bfsAux bin w h fuel queue visited).1, p ∈ queue ∨ p ∉ visited)
    ∧ (bfsAux bin w h fuel queue visited).2
        = visited ∪ (bfsAux bin w h fuel queue visited).1.toFinset
    ∧ (∀ p ∈ queue, p ∈ (bfsAux bin w h fuel queue visited).1) := by
  intro fuel
  induction fuel with
  | zero => intro queue visited _ _ _ hbound; omega
  | succ fuel ih =>
    intro queue visited hnd hvis hgood hbound
    cases queue with
    | nil =>
      rw [bfsAux_nil]
      exact ⟨List.nodup_nil, by simp, by simp, by simp, by simp⟩
    | cons p rest =>
      rw [bfsAux_cons]
      set ns := (neighborList w h p).filter (fun q => bin q && decide (q ∉ visited))
        with hns
      set r := bfsAux bin w h fuel (rest ++ ns) (visited ∪ ns.toFinset) with hr
      have hns_mem : ∀ q ∈ ns, q ∈ neighborList w h p ∧ bin q = true ∧ q ∉ visited := by
        intro q hq
        rw [hns] at hq
        have hmf := List.mem_filter.mp hq
        rcases (Bool.and_eq_true _ _).mp hmf.2 with ⟨h1, h2⟩
        exact ⟨hmf.1, h1, of_decide_eq_true h2⟩
      have hns_good : ∀ q ∈ ns, q ∈ goodSet bin w h := fun q hq =>
        Finset.mem_filter.mpr
          ⟨mem_neighborList_grid w h p q (hns_mem q hq).1, (hns_mem q hq).2.1⟩
      have hns_fresh : ∀ q ∈ ns, q ∉ visited := fun q hq => (hns_mem q hq).2.2
      have hns_nd : ns.Nodup := by
        rw [hns]
        exact (nodup_neighborList w h p).filter _
      have hsub : ns.toFinset ⊆ goodSet bin w h \ visited := by
        intro q hq
        rw [List.mem_toFinset] at hq
        exact Finset.mem_sdiff.mpr ⟨hns_good q hq, hns_fresh q hq⟩
      have hrest_nd : rest.Nodup := (List.nodup_cons.mp hnd).2
      have hp_rest : p ∉ rest := (List.nodup_cons.mp hnd).1
      have hp_vis : p ∈ visited := hvis p (List.mem_cons_self p rest)
      have hp_good : p ∈ goodSet bin w h := hgood p (List.mem_cons_self p rest)
      have hq_nd : (rest ++ ns).Nodup := by
        refine List.Nodup.append hrest_nd hns_nd ?_
        rw [List.disjoint_left]
        intro a ha hans
        exact hns_fresh a hans (hvis a (List.mem_cons_of_mem p ha))
      have hq_vis : ∀ q ∈ rest ++ ns, q ∈ visited ∪ ns.toFinset := by
        intro q hq
        rcases List.mem_append.mp hq with h1 | h1
        · exact Finset.mem_union_left _ (hvis q (List.mem_cons_of_mem p h1))
        · exact Finset.mem_union_right _ (List.mem_toFinset.mpr h1)
      have hq_good : ∀ q ∈ rest ++ ns, q ∈ goodSet bin w h := by
        intro q hq
        rcases List.mem_append.mp hq with h1 | h1
        · exact hgood q (List.mem_cons_of_mem p h1)
        · exact hns_good q h1
      have hcard_eq : ((goodSet bin w h) \ (visited ∪ ns.toFinset)).card
          = ((goodSet bin w h) \ visited).card - ns.length := by
        have h1 : (goodSet bin w h) \ (visited ∪ ns.toFinset)
            = ((goodSet bin w h) \ visited) \ ns.toFinset := by
          ext q
          simp only [Finset.mem_sdiff, Finset.mem_union]
          tauto
        rw [h1, Finset.card_sdiff hsub, List.toFinset_card_of_nodup hns_nd]
      have hcard_le : ns.length ≤ ((goodSet bin w h) \ visited).card := by
        rw [← List.toFinset_card_of_nodup hns_nd]
        exact Finset.card_le_card hsub
      have hbound' : (rest ++ ns).length
          + ((goodSet bin w h) \ (visited ∪ ns.toFinset)).card < fuel := by
        rw [List.length_append, hcard_eq]
        simp only [List.length_cons] at hbound
        omega
      obtain ⟨ihnd, ihgood, ihfresh, ihvis, ihqin⟩ :=
        ih (rest ++ ns) (visited ∪ ns.toFinset) hq_nd hq_vis hq_good hbound'
      have hpnotin : p ∉ r.1 := by
        intro hp
        rcases ihfresh p hp with hq | hnv
        · rcases List.mem_append.mp hq with h1 | h1
          · exact hp_rest h1
          · exact hns_fresh p h1 hp_vis
        · exact hnv (Finset.mem_union_left _ hp_vis)
      refine ⟨List.nodup_cons.mpr ⟨hpnotin, ihnd⟩, ?_, ?_, ?_, ?_⟩
      · intro q hq
        rcases List.mem_cons.mp hq with rfl | h1
        · exact hp_good
        · exact ihgood q h1
      · intro q hq
        rcases List.mem_cons.mp hq with rfl | h1
        · exact Or.inl (List.mem_cons_self q rest)
        · rcases ihfresh q h1 with h2 | h2
          · rcases List.mem_append.mp h2 with h3 | h3
            · exact Or.inl (List.mem_cons_of_mem p h3)
            · exact Or.inr (hns_fresh q h3)
          · exact Or.inr (fun hv => h2 (Finset.mem_union_left _ hv))
      · rw [ihvis]
        ext q
        simp only [Finset.mem_union, List.toFinset_cons, Finset.mem_insert,
          List.mem_toFinset]
        have hnspop : q ∈ ns → q ∈ r.1 := fun hq =>
          ihqin q (List.mem_append.mpr (Or.inr hq))
        have hppv : q = p → q ∈ visited := fun hq => hq ▸ hp_vis
        tauto
      · intro q hq
        rcases List.mem_cons.mp hq with rfl | h1
        · exact List.mem_cons_self q r.1
        · exact List.mem_cons_of_mem p (ihqin q (List.mem_append.mpr (Or.inl h1)))

lemma contoursPopsAux_cons (bin : Pix → Bool) (w h : ℕ) (s : Pix) (ss : List Pix)
    (visited : Finset Pix) :
    contoursPopsAux bin w h (s :: ss) visited
      = if bin s = true ∧ s ∉ visited then
          ((bfsAux bin w h (w * h + 1) [s] (insert s visited)).1
            :: (contoursPopsAux bin w h ss
                (bfsAux bin w h (w * h + 1) [s] (insert s visited)).2).1,
           (contoursPopsAux bin w h ss
              (bfsAux bin w h (w * h + 1) [s] (insert s visited)).2).2)
        else contoursPopsAux bin w h ss visited := rfl

/-- The outer-loop invariants of contours: each component is a nonempty,
duplicate-free list of foreground pixels disjoint from the entry visited set;
components are pairwise disjoint; the final visited set is exactly the entry
set plus the components; every foreground seed ends up visited. -/
lemma contoursPopsAux_spec (bin : Pix → Bool) (w h : ℕ) : ∀ (seeds : List Pix)
    (visited : Finset Pix),
    (∀ s ∈ seeds, s ∈ gridF w h) →
    (∀ c ∈ (contoursPopsAux bin w h seeds visited).1,
        c ≠ [] ∧ c.Nodup ∧ ∀ p ∈ c, p ∈ goodSet bin w h ∧ p ∉ visited)
    ∧ (contoursPopsAux bin w h seeds visited).1.Pairwise (fun c d => ∀ p ∈ c, p ∉ d)
    ∧ (∀ q, q ∈ (contoursPopsAux bin w h seeds visited).2 ↔
        q ∈ visited ∨ ∃ c ∈ (contoursPopsAux bin w h seeds visited).1, q ∈ c)
    ∧ (∀ s ∈ seeds, bin s = true → s ∈ (contoursPopsAux bin w h seeds visited).2) := by
  intro seeds
  induction seeds with
  | nil =>
    intro visited _
    refine ⟨by simp [contoursPopsAux], by simp [contoursPopsAux], ?_, by simp⟩
    intro q
    simp [contoursPopsAux]
  | cons s ss ih =>
    intro visited hgrid
    rw [contoursPopsAux_cons]
    split
    next hcond =>
      obtain ⟨hbs, hsv⟩ := hcond
      have hs_grid : s ∈ gridF w h := hgrid s (List.mem_cons_self s ss)
      have hs_good : s ∈ goodSet bin w h := Finset.mem_filter.mpr ⟨hs_grid, hbs⟩
      have hbound : ([s] : List Pix).length
          + ((goodSet bin w h) \ (insert s visited)).card < w * h + 1 := by
        have h1 : (goodSet bin w h) \ (insert s visited) ⊆ (goodSet bin w h).erase s := by
          intro q hq
          rcases Finset.mem_sdiff.mp hq with ⟨hg, hni⟩
          refine Finset.mem_erase.mpr ⟨?_, hg⟩
          intro hqs
          exact hni (hqs ▸ Finset.mem_insert_self s visited)
        have h2 := Finset.card_le_card h1
        rw [Finset.card_erase_of_mem hs_good] at h2
        have h3 : (goodSet bin w h).card ≤ w * h := by
          have h4 := Finset.card_filter_le (gridF w h) (fun p => bin p = true)
          rw [card_gridF] at h4
          exact h4
        have h5 : 1 ≤ (goodSet bin w h).card := Finset.card_pos.mpr ⟨s, hs_good⟩
        simp only [List.length_cons, List.length_nil]
        omega
      obtain ⟨bnd, bgood, bfresh, bvis, bqin⟩ := bfsAux_spec bin w h (w * h + 1) [s]
        (insert s visited) (List.nodup_singleton s)
        (by intro p hp
            rw [List.mem_singleton.mp hp]
            exact Finset.mem_insert_self s visited)
        (by intro p hp
            rw [List.mem_singleton.mp hp]
            exact hs_good)
        hbound
      set r := bfsAux bin w h (w * h + 1) [s] (insert s visited) with hrdef
      have hs_pop : s ∈ r.1 := bqin s (List.mem_singleton.mpr rfl)
      have hpops_fresh : ∀ p ∈ r.1, p ∉ visited := by
        intro p hp
        rcases bfresh p hp with h1 | h1
        · rw [List.mem_singleton.mp h1]
          exact hsv
        · intro hv
          exact h1 (Finset.mem_insert_of_mem hv)
      have hvis_sub : visited ⊆ r.2 := by
        rw [bvis]
        intro q hq
        exact Finset.mem_union_left _ (Finset.mem_insert_of_mem hq)
      have hpops_sub : ∀ p ∈ r.1, p ∈ r.2 := by
        rw [bvis]
        intro p hp
        exact Finset.mem_union_right _ (List.mem_toFinset.mpr hp)
      obtain ⟨ihA, ihB, ihC, ihD⟩ :=
        ih r.2 (fun q hq => hgrid q (List.mem_cons_of_mem s hq))
      refine ⟨?_, ?_, ?_, ?_⟩
      · intro c hc
        rcases List.mem_cons.mp hc with rfl | h1
        · exact ⟨List.ne_nil_of_mem hs_pop, bnd,
            fun p hp => ⟨bgood p hp, hpops_fresh p hp⟩⟩
        · obtain ⟨hne, hcnd, hprops⟩ := ihA c h1
          exact ⟨hne, hcnd, fun p hp =>
            ⟨(hprops p hp).1, fun hv => (hprops p hp).2 (hvis_sub hv)⟩⟩
      · refine List.Pairwise.cons ?_ ihB
        intro c' hc' p hp hpc'
        exact ((ihA c' hc').2.2 p hpc').2 (hpops_sub p hp)
      · intro q
        rw [ihC q]
        constructor
        · rintro (hq | ⟨c, hc, hqc⟩)
          · rw [bvis] at hq
            rcases Finset.mem_union.mp hq with h1 | h1
            · rcases Finset.mem_insert.mp h1 with rfl | h2
              · exact Or.inr ⟨r.1, List.mem_cons_self _ _, hs_pop⟩
              · exact Or.inl h2
            · exact Or.inr ⟨r.1, List.mem_cons_self _ _, List.mem_toFinset.mp h1⟩
          · exact Or.inr ⟨c, List.mem_cons_of_mem _ hc, hqc⟩
        · rintro (hq | ⟨c, hc, hqc⟩)
          · exact Or.inl (hvis_sub hq)
          · rcases List.mem_cons.mp hc with rfl | h1
            · exact Or.inl (hpops_sub q hqc)
            · exact Or.inr ⟨c, h1, hqc⟩
      · intro t ht hbt
        rcases List.mem_cons.mp ht with rfl | h1
        · exact (ihC t).mpr (Or.inl (hpops_sub t hs_pop))
        · exact ihD t h1 hbt
    next hcond =>
      obtain ⟨ihA, ihB, ihC, ihD⟩ :=
        ih visited (fun q hq => hgrid q (List.mem_cons_of_mem s hq))
      refine ⟨ihA, ihB, ihC, ?_⟩
      intro t ht hbt
      rcases List.mem_cons.mp ht with rfl | h1
      · have htv : t ∈ visited := by
          by_contra hnv
          exact hcond ⟨hbt, hnv⟩
        exact (ihC t).mpr (Or.inl htv)
      · exact ihD t h1 hbt

lemma sum_lengths_of_partition : ∀ (comps : List (List Pix)) (S : Finset Pix),
    (∀ c ∈ comps, c.Nodup) →
    comps.Pairwise (fun c d => ∀ p ∈ c, p ∉ d) →
    (∀ q, q ∈ S ↔ ∃ c ∈ comps, q ∈ c) →
    (comps.map List.length).sum = S.card := by
  intro comps
  induction comps with
  | nil =>
    intro S _ _ hS
    have hempty : S = ∅ := by
      refine Finset.eq_empty_iff_forall_not_mem.mpr (fun q hq => ?_)
      rcases (hS q).mp hq with ⟨c, hc, _⟩
      exact absurd hc (List.not_mem_nil c)
    rw [hempty]
    simp
  | cons c cs ihc =>
    intro S hnd hpw hS
    have hcS : c.toFinset ⊆ S := by
      intro q hq
      exact (hS q).mpr ⟨c, List.mem_cons_self c cs, List.mem_toFinset.mp hq⟩
    have hdisj : ∀ c' ∈ cs, ∀ p ∈ c, p ∉ c' := (List.pairwise_cons.mp hpw).1
    have hT : ∀ q, q ∈ S \ c.toFinset ↔ ∃ c' ∈ cs, q ∈ c' := by
      intro q
      rw [Finset.mem_sdiff, hS q]
      constructor
      · rintro ⟨⟨c', hc', hqc'⟩, hnc⟩
        rcases List.mem_cons.mp hc' with rfl | h1
        · exact absurd (List.mem_toFinset.mpr hqc') hnc
        · exact ⟨c', h1, hqc'⟩
      · rintro ⟨c', hc', hqc'⟩
        refine ⟨⟨c', List.mem_cons_of_mem c hc', hqc'⟩, ?_⟩
        intro hq
        exact hdisj c' hc' q (List.mem_toFinset.mp hq) hqc'
    have hrec := ihc (S \ c.toFinset)
      (fun c' hc' => hnd c' (List.mem_cons_of_mem c hc'))
      (List.pairwise_cons.mp hpw).2 hT
    have hcard : (S \ c.toFinset).card = S.card - c.toFinset.card :=
      Finset.card_sdiff hcS
    have hclen : c.toFinset.card = c.length :=
      List.toFinset_card_of_nodup (hnd c (List.mem_cons_self c cs))
    have hle : c.toFinset.card ≤ S.card := Finset.card_le_card hcS
    rw [List.map_cons, List.sum_cons, hrec, hcard]
    omega

lemma gridF_eq_seeds_toFinset (w h : ℕ) : gridF w h = (seedsList w h).toFinset := by
  ext p
  rw [List.mem_toFinset, mem_seedsList]

lemma card_goodSet_eq_countP (img : Image)
    (hlen : img.data.length = img.width * img.height) :
    (goodSet (binOf img) img.width img.height).card
      = img.data.countP (fun v => decide (0 < v)) := by
  have h1 : goodSet (binOf img) img.width img.height
      = ((seedsList img.width img.height).filter (binOf img)).toFinset := by
    unfold goodSet
    rw [List.toFinset_filter, gridF_eq_seeds_toFinset]
  have h2 : ((seedsList img.width img.height).filter (binOf img)).toFinset.card
      = ((seedsList img.width img.height).filter (binOf img)).length :=
    List.toFinset_card_of_nodup
      ((nodup_seedsList img.width img.height).filter (binOf img))
  have h3 : ((seedsList img.width img.height).filter (binOf img)).length
      = (seedsList img.width img.height).countP (binOf img) :=
    (List.countP_eq_length_filter (binOf img) (seedsList img.width img.height)).symm
  have h4 : (seedsList img.width img.height).countP (binOf img)
      = (List.range (img.height * img.width)).countP
          (fun i => decide (0 < img.data.getD i 0)) := by
    rw [← seedsList_map_atIdx img.width img.height, List.countP_map]
    rfl
  have hmap2 : (List.range img.data.length).map (fun i => img.data.getD i 0)
      = img.data := by
    refine List.ext_getElem (by simp) ?_
    intro n h1' h2'
    rw [List.getElem_map, List.getElem_range, List.getD_eq_getElem img.data 0 h2']
  have h5 : img.data.countP (fun v => decide (0 < v))
      = (List.range img.data.length).countP (fun i => decide (0 < img.data.getD i 0)) := by
    conv_lhs => rw [← hmap2]
    rw [List.countP_map]
    rfl
  rw [h1, h2, h3, h4, h5, hlen, Nat.mul_comm]

/-- C5 (amended). For a binary single-channel image, the connected components
the contours pass discovers are pairwise disjoint and their pixel counts sum
to the number of foreground (non-zero) bytes; with minArea = 1 every
component contributes exactly one box (its bounding box).  The claim's sum of
the boxes' width·height areas is not the foreground count: a bounding box
also covers pixels outside its non-rectangular component. -/
theorem claim_C5 (img : Image) (_hch : img.channels = 1)
    (hlen : img.data.length = img.width * img.height)
    (_hbin : ∀ v ∈ img.data, v = 0 ∨ v = 255) :
    ((img.contoursPops.map List.length).sum
        = img.data.countP (fun v => decide (0 < v)))
    ∧ img.contoursPops.Pairwise (fun c d => ∀ p ∈ c, p ∉ d)
    ∧ img.contours 1 = img.contoursPops.map boxOfPops := by
  obtain ⟨sA, sB, sC, sD⟩ := contoursPopsAux_spec (binOf img) img.width img.height
    (seedsList img.width img.height) ∅
    (fun s hs => (mem_seedsList img.width img.height s).mp hs)
  refine ⟨?_, sB, ?_⟩
  · rw [← card_goodSet_eq_countP img hlen]
    refine sum_lengths_of_partition img.contoursPops
      (goodSet (binOf img) img.width img.height)
      (fun c hc => (sA c hc).2.1) sB ?_
    intro q
    constructor
    · intro hq
      have hqg : q ∈ gridF img.width img.height := (Finset.mem_filter.mp hq).1
      have hqb : binOf img q = true := (Finset.mem_filter.mp hq).2
      have hseed : q ∈ seedsList img.width img.height :=
        (mem_seedsList img.width img.height q).mpr hqg
      rcases (sC q).mp (sD q hseed hqb) with habs | hex
      · exact absurd habs (Finset.not_mem_empty q)
      · exact hex
    · rintro ⟨c, hc, hqc⟩
      exact ((sA c hc).2.2 q hqc).1
  · unfold Image.contours
    refine filterMap_eq_map_of_some _ _ _ ?_
    intro c hc
    have hne := (sA c hc).1
    have hlen1 : 1 ≤ c.length := by
      cases c with
      | nil => exact absurd rfl hne
      | cons a t => simp
    simp only [if_pos hlen1]

/-- Counterexample to C5 as stated: the 2 × 2 binary image with foreground on
the diagonal has one 8-connected component of 2 pixels whose bounding box is
the whole 2 × 2 square; with minArea = 1 the returned boxes' area sum is 4
while the foreground count is 2. -/
theorem claim_C5_counterexample :
    (∀ v ∈ ([255, 0, 0, 255] : List ℕ), v = 0 ∨ v = 255)
    ∧ Image.contours ⟨2, 2, 1, [255, 0, 0, 255]⟩ 1 = [⟨0, 0, 2, 2⟩]
    ∧ (((Image.contours ⟨2, 2, 1, [255, 0, 0, 255]⟩ 1).map
        (fun b => b.width * b.height)).sum = 4)
    ∧ ([255, 0, 0, 255] : List ℕ).countP (fun v => decide (0 < v)) = 2
    ∧ (4 : ℚ) ≠ (2 : ℚ) := by
  have hbox : Image.contours ⟨2, 2, 1, [255, 0, 0, 255]⟩ 1 = [⟨0, 0, 2, 2⟩] := by decide
  refine ⟨by decide, hbox, ?_, by decide, by norm_num⟩
  rw [hbox]
  norm_num

/-- Witness for C5 at the same concrete binary image. -/
theorem claim_C5_witness :
    (((Image.contoursPops ⟨2, 2, 1, [255, 0, 0, 255]⟩).map List.length).sum
        = ([255, 0, 0, 255] : List ℕ).countP (fun v => decide (0 < v)))
    ∧ (Image.contoursPops ⟨2, 2, 1, [255, 0, 0, 255]⟩).Pairwise
        (fun c d => ∀ p ∈ c, p ∉ d)
    ∧ Image.contours ⟨2, 2, 1, [255, 0, 0, 255]⟩ 1
        = (Image.contoursPops ⟨2, 2, 1, [255, 0, 0, 255]⟩).map boxOfPops :=
  claim_C5 ⟨2, 2, 1, [255, 0, 0, 255]⟩ rfl (by decide) (by decide)

end PaddleOCR
